import Mathlib

/-!
Verification development for the sphinx-click documentation extension
(`sphinx_click/ext.py`).  Python strings are embedded as `List Char`,
generators of lines as `List Str`, and the directive entry point as an
`Except`-returning function.  Definitions follow the Python source; external
library behaviour (click, docutils, sphinx) is modelled only to the extent
the source observes it, and each such model carries a doc comment saying so.
-/

namespace SphinxClick

abbrev Str := List Char

/-- Character list of a Lean string literal. -/
def S (s : String) : Str := s.data

/-- The escape character `\x1B` that starts an ANSI escape sequence. -/
def escChar : Char := Char.ofNat 27

def nl : Char := Char.ofNat 10
def cr : Char := Char.ofNat 13
def tab : Char := Char.ofNat 9
def sp : Char := ' '
/-- Backspace `\b`, treated specially by the help formatters. -/
def bsChar : Char := Char.ofNat 8
def dash : Char := '-'
/-- Single quote, built by code point so string literals stay quote free. -/
def sq : Char := Char.ofNat 39
/-- Backquote, built by code point so string literals stay quote free. -/
def bq : Char := Char.ofNat 96

/-- Embedding of Python `str.isspace` membership for the characters that can
occur here (ASCII whitespace, the C1 and Unicode line breaks).  Exotic Unicode
space characters outside this set are not used by any claim. -/
def pyIsSpace (c : Char) : Bool :=
  c == sp || c == tab || c == nl || c == cr || c == Char.ofNat 11 ||
  c == Char.ofNat 12 || c == Char.ofNat 28 || c == Char.ofNat 29 ||
  c == Char.ofNat 30 || c == Char.ofNat 31 || c == Char.ofNat 133 ||
  c == Char.ofNat 160 || c == Char.ofNat 8232 || c == Char.ofNat 8233

/-- Line-break characters of Python `str.splitlines` other than `\r`
(which is handled separately because of the `\r\n` pair). -/
def isLB (c : Char) : Bool :=
  c == nl || c == Char.ofNat 11 || c == Char.ofNat 12 || c == Char.ofNat 28 ||
  c == Char.ofNat 29 || c == Char.ofNat 30 || c == Char.ofNat 133 ||
  c == Char.ofNat 8232 || c == Char.ofNat 8233

/-! ### The ANSI escape-sequence regex

`ANSI_ESC_SEQ_RE = re.compile(r'\x1B\[\d+(;\d+){0,2}m')`.  Because the
character classes of the pattern are pairwise disjoint, the leftmost greedy
match of Python `re` is computed by a deterministic parser. -/

def isDigitC (c : Char) : Bool :=
  decide (48 ≤ c.toNat) && decide (c.toNat ≤ 57)

/-- Consume `\d+`: at least one digit, then all following digits.  Returns
the remainder, or `none` if the input does not start with a digit. -/
def dropDigits1 : List Char → Option (List Char)
  | [] => Option.none
  | c :: rest => if isDigitC c then some (rest.dropWhile isDigitC) else Option.none

/-- Consume `(;\d+){0,k}m` and return the remainder after the final `m`. -/
def ansiTailRem : Nat → List Char → Option (List Char)
  | _, [] => Option.none
  | 0, c :: rest => if c == 'm' then some rest else Option.none
  | k + 1, c :: rest =>
    if c == 'm' then some rest
    else if c == ';' then
      match dropDigits1 rest with
      | some r => ansiTailRem k r
      | Option.none => Option.none
    else Option.none

/-- The greedy match of `ANSI_ESC_SEQ_RE` at the head of the input; returns
the remainder after the match. -/
def ansiMatch : List Char → Option (List Char)
  | a :: b :: rest =>
    if a == escChar && b == '[' then
      match dropDigits1 rest with
      | some r => ansiTailRem 2 r
      | Option.none => Option.none
    else Option.none
  | _ => Option.none

/-- One pass of `ANSI_ESC_SEQ_RE.sub('', s)`: scan left to right, removing
each leftmost non-overlapping match.  Fuel-driven so that it is structural;
the fuel `s.length` always suffices because a match consumes characters. -/
def ansiSubGo : Nat → List Char → List Char
  | _, [] => []
  | 0, l => l
  | fuel + 1, c :: rest =>
    match ansiMatch (c :: rest) with
    | some rem => ansiSubGo fuel rem
    | Option.none => c :: ansiSubGo fuel rest

/-- `ANSI_ESC_SEQ_RE.sub('', s)`. -/
def ansiSub (s : Str) : Str := ansiSubGo s.length s

/-- Whether some position of the string starts an ANSI escape-sequence match. -/
def hasAnsi : List Char → Bool
  | [] => false
  | c :: rest => (ansiMatch (c :: rest)).isSome || hasAnsi rest

/-- The string contains no `\x1B` character at all. -/
def noEsc (s : Str) : Bool := s.all (fun c => !(c == escChar))

/-! ### Python string helpers -/

def pyLstrip (s : Str) : Str := s.dropWhile pyIsSpace
def pyRstrip (s : Str) : Str := (s.reverse.dropWhile pyIsSpace).reverse
def pyStrip (s : Str) : Str := pyLstrip (pyRstrip s)

/-- Truthiness of an optional Python string: `None` and `''` are falsy. -/
def pyTruthy : Option Str → Bool
  | Option.none => false
  | some s => !s.isEmpty

def optGet : Option Str → Str
  | Option.none => []
  | some s => s

/-- Python `a or b` on optional strings. -/
def pyOr (a b : Option Str) : Option Str := if pyTruthy a then a else b

/-- Python `str.expandtabs(tw)`; the column is tracked modulo the tab width
and resets after a line break. -/
def expandTabsAux (tw : Nat) : Nat → List Char → List Char
  | _, [] => []
  | col, c :: rest =>
    if c == tab then
      List.replicate (tw - col % tw) sp ++ expandTabsAux tw 0 rest
    else if c == nl || c == cr then c :: expandTabsAux tw 0 rest
    else c :: expandTabsAux tw ((col + 1) % tw) rest

def expandTabs (tw : Nat) (s : Str) : Str := expandTabsAux tw 0 s

/-- Python `s.split(chr(10))`. -/
def splitNL : List Char → List (List Char)
  | [] => [[]]
  | c :: rest =>
    if c == nl then [] :: splitNL rest
    else
      match splitNL rest with
      | [] => [[c]]
      | l :: ls => (c :: l) :: ls

/-- Python `s.splitlines()` (no kept ends). -/
def splitNoKeep : List Char → List (List Char)
  | [] => []
  | [c] => if c == cr || isLB c then [[]] else [[c]]
  | c :: d :: rest =>
    if c == cr then
      if d == nl then [] :: splitNoKeep rest
      else [] :: splitNoKeep (d :: rest)
    else if isLB c then [] :: splitNoKeep (d :: rest)
    else
      match splitNoKeep (d :: rest) with
      | [] => [[c]]
      | l :: ls => (c :: l) :: ls

/-- Python `s.splitlines(True)` (line breaks kept). -/
def splitKeep : List Char → List (List Char)
  | [] => []
  | [c] => [[c]]
  | c :: d :: rest =>
    if c == cr then
      if d == nl then [cr, nl] :: splitKeep rest
      else [cr] :: splitKeep (d :: rest)
    else if isLB c then [c] :: splitKeep (d :: rest)
    else
      match splitKeep (d :: rest) with
      | [] => [[c]]
      | l :: ls => (c :: l) :: ls

/-- Python `''.join`. -/
def joinAll : List Str → Str
  | [] => []
  | l :: ls => l ++ joinAll ls

/-- Python `chr(10).join`. -/
def joinNL : List Str → Str
  | [] => []
  | [l] => l
  | l :: ls => l ++ nl :: joinNL ls

/-- Python `sep.join(parts)`. -/
def joinSep (sep : Str) : List Str → Str
  | [] => []
  | [l] => l
  | l :: ls => l ++ sep ++ joinSep sep ls

/-! ### `_indent` (ext.py lines 52-59) -/

/-- `_indent(text, level)`: prefix every line that has content with
`4 * level` spaces, leaving whitespace-only lines alone. -/
def _indent (text : Str) (level : Nat := 1) : Str :=
  joinAll ((splitKeep text).map
    (fun line => if !(pyStrip line).isEmpty
      then List.replicate (4 * level) sp ++ line else line))

/-! ### `inspect.cleandoc` (Python standard library, used by `_format_help`) -/

/-- The minimum indentation of the non-blank lines (Python tracks it with
`sys.maxsize`; `none` plays that role here). -/
def marginFold : Option Nat → List Str → Option Nat
  | m, [] => m
  | m, l :: ls =>
    let content := (pyLstrip l).length
    if content == 0 then marginFold m ls
    else
      let ind := l.length - content
      marginFold (some (match m with
        | Option.none => ind
        | some m0 => min m0 ind)) ls

def dropBlankEnds (ls : List Str) : List Str :=
  ((ls.reverse.dropWhile List.isEmpty).reverse).dropWhile List.isEmpty

/-- The margin-removal pass of `cleandoc` over the split lines. -/
def cleandocLines : List Str → List Str
  | [] => []
  | l0 :: rest =>
    pyLstrip l0 ::
      (match marginFold Option.none rest with
       | some m => rest.map (List.drop m)
       | Option.none => rest)

/-- Embedding of `inspect.cleandoc`: expand tabs, remove the common margin of
the lines after the first, strip the first line, drop blank boundary lines. -/
def cleandoc (doc : Str) : Str :=
  joinNL (dropBlankEnds (cleandocLines (splitNL (expandTabs 8 doc))))

/-! ### `docutils.statemachine.string2lines` -/

/-- The `[\v\f]` to space substitution done for `convert_whitespace`. -/
def wsSub (s : Str) : Str :=
  s.map (fun c => if c == Char.ofNat 11 || c == Char.ofNat 12 then sp else c)

/-- Embedding of `string2lines(s, tab_width=tw, convert_whitespace=convert)`:
split into lines, expand tabs, strip trailing whitespace. -/
def string2lines (tw : Nat) (convert : Bool) (s : Str) : List Str :=
  let s2 := if convert then wsSub s else s
  (splitNoKeep s2).map (fun l => pyRstrip (expandTabsAux tw 0 l))

/-! ### `_format_help` (ext.py lines 138-152) -/

/-- The loop of `_format_help` and `_format_option`: a `\b` line turns on
literal-block bars for the following lines until a blank line. -/
def barLines : Bool → List Str → List Str
  | _, [] => []
  | bar, l :: rest =>
    if l == [bsChar] then barLines true rest
    else
      let bar2 := if l.isEmpty then false else bar
      (if bar2 then '|' :: sp :: l else l) :: barLines bar2 rest

/-- `_format_help`: strip ANSI escapes, clean up the docstring, split into
lines with bar processing, and emit a trailing blank line. -/
def _format_help (helpString : Str) : List Str :=
  barLines false (string2lines 4 true (cleandoc (ansiSub helpString))) ++ [[]]

/-! ### Generic helpers used by several functions -/

def uscore : Char := '_'

/-- Stable insertion into a sorted list. -/
def insStable (le : α → α → Bool) (a : α) : List α → List α
  | [] => [a]
  | b :: bs => if le a b then a :: b :: bs else b :: insStable le a bs

/-- Embedding of Python `sorted` (a stable sort). -/
def pySorted (le : α → α → Bool) : List α → List α
  | [] => []
  | a :: rest => insStable le a (pySorted le rest)

/-- Python string comparison: lexicographic by code point. -/
def strLe : Str → Str → Bool
  | [], _ => true
  | _ :: _, [] => false
  | a :: as, b :: bs => if a == b then strLe as bs else decide (a < b)

def strUpper (s : Str) : Str := s.map Char.toUpper

/-- `list(set(...))` or iteration over a set, modelled as keeping the first
occurrence of each value (the Python iteration order is unspecified). -/
def dedupAux (seen : List Str) : List Str → List Str
  | [] => []
  | x :: xs => if seen.contains x then dedupAux seen xs else x :: dedupAux (x :: seen) xs

def dedupFirst (l : List Str) : List Str := dedupAux [] l

def hexDigit (n : Nat) : Char :=
  if n < 10 then Char.ofNat (48 + n) else Char.ofNat (87 + n)

def reprEscape (quote : Char) (c : Char) : Str :=
  if c == '\\' then ['\\', '\\']
  else if c == quote then ['\\', quote]
  else if c == nl then ['\\', 'n']
  else if c == cr then ['\\', 'r']
  else if c == tab then ['\\', 't']
  else if decide (c.toNat < 32) || c == Char.ofNat 127 then
    ['\\', 'x', hexDigit (c.toNat / 16), hexDigit (c.toNat % 16)]
  else [c]

/-- Models the Python builtin `repr` on strings (quote selection and escaping
of control characters), used for the `:default:` extras. -/
def pyReprStr (s : Str) : Str :=
  let useDouble := s.contains sq && !(s.contains '"')
  let qc := if useDouble then '"' else sq
  qc :: (s.flatMap (reprEscape qc) ++ [qc])

/-! ### The click data model

The spec treats the CLI library object model as an external data source; the
fields below are exactly the ones `ext.py` reads.  `repr` of default values
and the string forms of choices are carried as strings. -/

inductive SDv
  | unset
  | flag (b : Bool)
  | text (s : Str)
deriving DecidableEq

inductive DefaultV
  | noneV
  | single (r : Str)
  | listOf (rs : List Str)
deriving DecidableEq

structure Opt where
  opts : List Str
  secondary_opts : List Str
  name : Str
  metavar : Option Str
  is_flag : Bool
  count : Bool
  required : Bool
  help : Option Str
  show_default : SDv
  default : DefaultV
  choices : Option (List Str)
  hidden : Bool
  envvar : Option Str
deriving DecidableEq

structure Arg where
  opts : List Str
  name : Str
  human_readable_name : Str
  required : Bool
  nargs : Int
  help : Option Str
  envvar : Option Str
deriving DecidableEq

inductive Param
  | opt (o : Opt)
  | arg (a : Arg)
deriving DecidableEq

def Param.opts : Param → List Str
  | .opt o => o.opts
  | .arg a => a.opts

def Param.name : Param → Str
  | .opt o => o.name
  | .arg a => a.name

def Param.envvar : Param → Option Str
  | .opt o => o.envvar
  | .arg a => a.envvar

def Param.setEnvvar : Param → Str → Param
  | .opt o, e => .opt { o with envvar := some e }
  | .arg a, e => .arg { a with envvar := some e }

/-- A click Command or Group: a Group is a Cmd with a nonempty `commands`
association list (insertion ordered, as a Python dict).  The lazy-loading
MultiCommand fallback of `_filter_commands` is not modelled: every group
carries its dict. -/
inductive Cmd where
  | mk (name : Str) (help : Option Str) (short_help : Option Str)
       (epilog : Option Str) (hidden : Bool) (params : List Param)
       (commands : List (Str × Cmd)) (usagePieces : List Str)

def Cmd.name : Cmd → Str
  | .mk n _ _ _ _ _ _ _ => n

def Cmd.help : Cmd → Option Str
  | .mk _ h _ _ _ _ _ _ => h

def Cmd.short_help : Cmd → Option Str
  | .mk _ _ sh _ _ _ _ _ => sh

def Cmd.epilog : Cmd → Option Str
  | .mk _ _ _ e _ _ _ _ => e

def Cmd.hidden : Cmd → Bool
  | .mk _ _ _ _ h _ _ _ => h

def Cmd.params : Cmd → List Param
  | .mk _ _ _ _ _ ps _ _ => ps

def Cmd.commands : Cmd → List (Str × Cmd)
  | .mk _ _ _ _ _ _ cs _ => cs

def Cmd.usagePieces : Cmd → List Str
  | .mk _ _ _ _ _ _ _ up => up

/-- A click Context: the command, the invocation name, an optional parent,
the auto envvar prefix and the inherited show_default setting. -/
inductive Ctx where
  | root (command : Cmd) (info_name : Str) (autoPfx : Option Str)
      (showDefaultCtx : Option Bool)
  | child (command : Cmd) (info_name : Str) (parent : Ctx)
      (autoPfx : Option Str) (showDefaultCtx : Option Bool)

def Ctx.command : Ctx → Cmd
  | .root c _ _ _ => c
  | .child c _ _ _ _ => c

def Ctx.info_name : Ctx → Str
  | .root _ n _ _ => n
  | .child _ n _ _ _ => n

def Ctx.autoPfx : Ctx → Option Str
  | .root _ _ a _ => a
  | .child _ _ _ a _ => a

def Ctx.showDefaultCtx : Ctx → Option Bool
  | .root _ _ _ s => s
  | .child _ _ _ _ s => s

def Ctx.parentOpt : Ctx → Option Ctx
  | .root _ _ _ _ => Option.none
  | .child _ _ p _ _ => some p

/-- Models external click.Context construction as `_generate_nodes` performs
it (`click.Context(command, info_name=name, parent=parent)`): the auto envvar
prefix is inherited from the parent, extended with the upper-cased info name
and with dashes replaced by underscores; show_default is inherited. -/
def clickCtx (command : Cmd) (name : Str) (parent : Option Ctx) : Ctx :=
  match parent with
  | Option.none => Ctx.root command name Option.none Option.none
  | some p =>
    let auto := match Ctx.autoPfx p with
      | some a =>
        some ((a ++ uscore :: strUpper name).map
          (fun c => if c == dash then uscore else c))
      | Option.none => Option.none
    Ctx.child command name p auto (Ctx.showDefaultCtx p)

/-- Models external click Context.command_path: the parent path followed by
the info name (usage pieces of parent arguments are not modelled). -/
def commandPath : Ctx → Str
  | .root _ name _ _ => name
  | .child _ name p _ _ => commandPath p ++ sp :: name

/-! ### Formatting functions of ext.py -/

def _format_command_name (ctx : Ctx) : Str :=
  (commandPath ctx).map (fun c => if c == sp then dash else c)

/-- Models the external click help formatter as `_get_usage` drives it
(`write_usage(path, pieces, prefix='')`): a single unwrapped usage line. -/
def _get_usage (ctx : Ctx) : Str :=
  let pieces := Cmd.usagePieces (Ctx.command ctx)
  if pieces.isEmpty then commandPath ctx
  else commandPath ctx ++ sp :: joinSep [sp] pieces

/-- Models external click `_split_opt` as used by `join_options`: the length
of the option prefix (0 for a bare word, 2 for a doubled punctuation prefix
such as `--`, otherwise 1). -/
def optPrefixLen (o : Str) : Nat :=
  match o with
  | [] => 0
  | c :: rest =>
    if c.isAlphanum then 0
    else
      match rest with
      | d :: _ => if d == c then 2 else 1
      | [] => 1

/-- Models external click.formatting.join_options: the option strings sorted
by prefix length (stable) and joined with comma-space. -/
def join_options (opts : List Str) : Str :=
  joinSep (S ", ")
    (pySorted (fun a b => decide (optPrefixLen a ≤ optPrefixLen b)) opts)

/-- `metavar.lstrip('<[{($').rstrip('>]})$')` of `_write_opts`. -/
def stripMetavar (mv : Str) : Str :=
  let lset : List Char := ['<', '[', Char.ofNat 123, '(', '$']
  let rset : List Char := ['>', ']', Char.ofNat 125, ')', '$']
  ((mv.dropWhile (fun c => lset.contains c)).reverse.dropWhile
    (fun c => rset.contains c)).reverse

def _write_opts (opt : Opt) (opts : List Str) : Str :=
  let rv := join_options opts
  if !opt.is_flag && !opt.count then
    let nm := match opt.metavar with
      | some mv => if !mv.isEmpty then stripMetavar mv else opt.name
      | Option.none => opt.name
    rv ++ sp :: '<' :: (nm ++ ['>'])
  else rv

/-- The `:default:` extra built from `opt.default`. -/
def defaultExtra : DefaultV → List Str
  | DefaultV.noneV => []
  | DefaultV.single r => [S ":default: " ++ [bq, bq] ++ r ++ [bq, bq]]
  | DefaultV.listOf rs =>
    [S ":default: " ++ [bq, bq] ++ joinSep (S ", ") rs ++ [bq, bq]]

/-- `_get_help_record`: the sphinx-friendly option synopsis and help body. -/
def _get_help_record (ctx : Ctx) (opt : Opt) : Str × Str :=
  let rv := [_write_opts opt opt.opts] ++
    (if opt.secondary_opts.isEmpty then [] else [_write_opts opt opt.secondary_opts])
  let out : List Str :=
    if pyTruthy opt.help then
      if opt.required then [S "**Required** " ++ optGet opt.help]
      else [optGet opt.help]
    else if opt.required then [S "**Required**"] else []
  let extras1 : List Str :=
    match opt.show_default with
    | SDv.text s => [S ":default: " ++ [bq, bq] ++ pyReprStr (ansiSub s) ++ [bq, bq]]
    | SDv.flag b => if b then defaultExtra opt.default else []
    | SDv.unset =>
      match Ctx.showDefaultCtx ctx with
      | some true => defaultExtra opt.default
      | _ => []
  let extras := extras1 ++
    (match opt.choices with
     | some cs => [S ":options: " ++ joinSep (S " | ") cs]
     | Option.none => [])
  let out2 := if extras.isEmpty then out
    else (if out.isEmpty then [] else out ++ [[]]) ++ extras
  (joinSep (S ", ") rv, joinNL out2)

/-- The loop at the end of `_format_option`: bar processing plus `_indent`. -/
def barIndentLines : Bool → List Str → List Str
  | _, [] => []
  | bar, l :: rest =>
    if l == [bsChar] then barIndentLines true rest
    else
      let bar2 := if l.isEmpty then false else bar
      _indent (if bar2 then '|' :: sp :: l else l) 1 :: barIndentLines bar2 rest

/-- `_format_option`: anchors for each option name, the option directive, and
the ANSI-stripped, bar-processed, indented help body. -/
def _format_option (ctx : Ctx) (opt : Opt) : List Str :=
  let option_names := dedupFirst (opt.opts.map (fun o => o.dropWhile (fun c => c == dash)))
  let oh := _get_help_record ctx opt
  option_names.flatMap (fun n =>
    [S ".. _" ++ _format_command_name ctx ++ dash :: n ++ [':'], []]) ++
  [S ".. option:: " ++ oh.fst] ++
  (if !oh.snd.isEmpty then
     [] :: barIndentLines false (string2lines 4 true (ansiSub oh.snd))
   else [])

/-- `_format_options`: every non-hidden Option, each followed by a blank. -/
def _format_options (ctx : Ctx) : List Str :=
  let params := (Cmd.params (Ctx.command ctx)).filterMap (fun p =>
    match p with
    | Param.opt o => if o.hidden then Option.none else some o
    | Param.arg _ => Option.none)
  params.flatMap (fun o => _format_option ctx o ++ [[]])

def _format_argument (ctx : Ctx) (a : Arg) : List Str :=
  [S ".. _" ++ _format_command_name ctx ++ dash :: a.human_readable_name ++ [':'],
   [],
   S ".. option:: " ++ a.human_readable_name,
   [],
   _indent ((if a.required then S "Required" else S "Optional") ++ S " argument" ++
     (if a.nargs == 1 then [] else S "(s)")) 1] ++
  (if pyTruthy a.help then
     [] :: (_format_help (ansiSub (optGet a.help))).map (fun l => _indent l 1)
   else [])

def _format_arguments (ctx : Ctx) : List Str :=
  ((Cmd.params (Ctx.command ctx)).filterMap (fun p =>
    match p with
    | Param.arg a => some a
    | Param.opt _ => Option.none)).flatMap
    (fun a => _format_argument ctx a ++ [[]])

def paramRef : Param → Str
  | Param.arg a => a.human_readable_name
  | Param.opt o => o.opts.headD []

/-- `_format_envvar`: anchors for each parameter name, the envvar directive
and the cross reference to the option it feeds. -/
def _format_envvar (ctx : Ctx) (p : Param) : List Str :=
  let command_name := _format_command_name ctx
  let names0 := pySorted strLe
    (dedupFirst ((Param.opts p).map (fun o => o.dropWhile (fun c => c == dash))))
  let names := if (names0.map strUpper).contains (strUpper (Param.name p))
    then names0 else names0 ++ [Param.name p]
  let ev := match Param.envvar p with
    | some e => e
    | Option.none => S "None"
  names.flatMap (fun n =>
    [S ".. _" ++ command_name ++ dash :: n ++ dash :: ev ++ [':'], []]) ++
  [S ".. envvar:: " ++ ev, S "   :noindex:", []] ++
  [_indent (S "Provide a default for :option:" ++ bq :: paramRef p ++ [bq]) 1]

/-- The auto-envvar loop of `_format_envvars`: parameters without a truthy
envvar get `PREFIX_NAME` assigned — a persistent mutation of the click
parameter object. -/
def autoParams (pfx : Str) : List Param → List Param
  | [] => []
  | p :: rest =>
    (if pyTruthy (Param.envvar p) then p
     else Param.setEnvvar p (pfx ++ uscore :: strUpper (Param.name p))) ::
    autoParams pfx rest

/-- `_format_envvars` returns the yielded lines together with the command
parameter list as it stands after the call (the Python code assigns
`param.envvar` in place in the auto-envvar branch). -/
def _format_envvars (ctx : Ctx) : List Str × List Param :=
  match Ctx.autoPfx ctx with
  | some pfx =>
    let params := autoParams pfx (Cmd.params (Ctx.command ctx))
    (params.flatMap (fun p => _format_envvar ctx p ++ [[]]), params)
  | Option.none =>
    let params := (Cmd.params (Ctx.command ctx)).filter
      (fun p => pyTruthy (Param.envvar p))
    (params.flatMap (fun p => _format_envvar ctx p ++ [[]]),
     Cmd.params (Ctx.command ctx))

def _format_description (ctx : Ctx) : List Str :=
  let hs := pyOr (Cmd.help (Ctx.command ctx)) (Cmd.short_help (Ctx.command ctx))
  if pyTruthy hs then _format_help (optGet hs) else []

def _format_usage (ctx : Ctx) : List Str :=
  [S ".. code-block:: shell", []] ++
  (splitNoKeep (_get_usage ctx)).map (fun l => _indent l 1) ++ [[]]

def _format_header (ctx : Ctx) : List Str :=
  _format_description ctx ++
  [S ".. _" ++ _format_command_name ctx ++ [':'],
   [],
   S ".. program:: " ++ commandPath ctx]

def _format_epilog (ctx : Ctx) : List Str :=
  if pyTruthy (Cmd.epilog (Ctx.command ctx)) then
    _format_help (optGet (Cmd.epilog (Ctx.command ctx)))
  else []

/-- Models external click Command.get_short_help_str: the short help when
set, otherwise a 45-character truncation of the first help line. -/
def get_short_help_str (c : Cmd) : Str :=
  if pyTruthy (Cmd.short_help c) then optGet (Cmd.short_help c)
  else ((optGet (Cmd.help c)).takeWhile (fun ch => !(ch == nl))).take 45

def _format_subcommand (command : Cmd) : List Str :=
  [S ".. object:: " ++ Cmd.name command] ++
  (let sh := get_short_help_str command
   if sh.isEmpty then []
   else [] :: (string2lines 4 true sh).map (fun l => _indent l 1))

/-- The list comprehension `[lookup[c] for c in commands if c in lookup]`. -/
def lookupLoop (lookup : List (Str × Cmd)) : List Str → List Cmd
  | [] => []
  | c :: cs =>
    match lookup.find? (fun p => p.fst == c) with
    | some p => p.snd :: lookupLoop lookup cs
    | Option.none => lookupLoop lookup cs

/-- `_filter_commands`: all sub-commands sorted by command name when no
explicit list is given, otherwise the resolvable names in the given order. -/
def _filter_commands (ctx : Ctx) (commands : Option (List Str)) : List Cmd :=
  let lookup := Cmd.commands (Ctx.command ctx)
  match commands with
  | Option.none =>
    pySorted (fun a b => strLe (Cmd.name a) (Cmd.name b)) (lookup.map Prod.snd)
  | some cs => lookupLoop lookup cs

/-- The loop of `_format_subcommand_summary`, skipping hidden sub-commands. -/
def subcommandLoop : List Cmd → List Str
  | [] => []
  | c :: rest =>
    if Cmd.hidden c then subcommandLoop rest
    else _format_subcommand c ++ [[]] ++ subcommandLoop rest

def _format_subcommand_summary (ctx : Ctx) (commands : Option (List Str)) : List Str :=
  let objs := _filter_commands ctx commands
  (if objs.isEmpty then [] else [S ".. rubric:: Commands", []]) ++
  subcommandLoop objs

/-- The nesting modes of the `:nested:` option (the directive also admits the
absent value, embedded as `Option Nested` with `none` for Python None). -/
inductive Nested
  | complete
  | full
  | short
  | none_
deriving DecidableEq

/-- `_format_command`: header, usage, options, arguments, environment
variables, epilog, and — except for the full and none modes — the inline
sub-command summary. -/
def _format_command (ctx : Ctx) (nestedMode : Option Nested)
    (commands : Option (List Str)) (hide_header : Bool) : List Str :=
  if Cmd.hidden (Ctx.command ctx) then []
  else
    (if nestedMode = some Nested.none_ ∨ hide_header = false then
       _format_header ctx
     else []) ++
    _format_usage ctx ++
    (let lines := _format_options ctx
     (if lines.isEmpty then [] else [S ".. rubric:: Options", []]) ++ lines) ++
    (let lines := _format_arguments ctx
     (if lines.isEmpty then [] else [S ".. rubric:: Arguments", []]) ++ lines) ++
    (let lines := (_format_envvars ctx).fst
     (if lines.isEmpty then []
      else [S ".. rubric:: Environment variables", []]) ++ lines) ++
    _format_epilog ctx ++
    (if nestedMode = some Nested.full ∨ nestedMode = some Nested.none_ then []
     else _format_subcommand_summary ctx commands)

/-- `_format_summary`: header and usage (unless hidden) plus the sub-command
summary. -/
def _format_summary (ctx : Ctx) (commands : Option (List Str))
    (hide_header : Bool) : List Str :=
  if Cmd.hidden (Ctx.command ctx) then []
  else
    (if hide_header then [] else _format_header ctx ++ _format_usage ctx) ++
    _format_subcommand_summary ctx commands

/-! ### Docutils nodes and `_generate_nodes` -/

/-- The docutils node shapes produced by the directive: a titled section (with
its identifier), a paragraph, and the parse of an accumulated line block
(`nested_parse` of external docutils is modelled as the opaque `parsed`
constructor holding the lines handed to it). -/
inductive DNode where
  | sect (ids : Str) (title : Str) (children : List DNode)
  | par (children : List DNode)
  | parsed (lines : List Str)

mutual
/-- Size of a command tree, used as recursion fuel for `_generate_nodes`. -/
def cmdSize : Cmd → Nat
  | .mk _ _ _ _ _ _ cs _ => 1 + cmdSizeList cs

def cmdSizeList : List (Str × Cmd) → Nat
  | [] => 0
  | (_, c) :: rest => 1 + cmdSize c + cmdSizeList rest
end

/-- The recursion of `_generate_nodes`, driven by fuel so that it remains
structural; `_generate_nodes` supplies `cmdSize command` which always
suffices (`genNodesGo_stable` below).  The CommandCollection branch and the
post-processing hook (an arbitrary external callable) are not modelled. -/
def genNodesGo : Nat → Str → Cmd → Option Ctx → Option Nested →
    Option (List Str) → Bool → Bool → List DNode
  | 0, _, _, _, _, _, _, _ => []
  | fuel + 1, name, command, parent, nestedMode, commands, semantic_group, hide_header =>
    let ctx := clickCtx command name parent
    if Cmd.hidden command then []
    else
      let preLines := if nestedMode = some Nested.complete then
          _format_summary ctx commands hide_header else []
      let nested2 := if nestedMode = some Nested.complete then
          some Nested.full else nestedMode
      let hideCur := if nestedMode = some Nested.complete then true else hide_header
      let resultLines := preLines ++
        (if semantic_group then _format_description ctx
         else _format_command ctx nested2 commands hideCur)
      let subNodes :=
        if nested2 = some Nested.full then
          (_filter_commands ctx commands).flatMap (fun sub =>
            genNodesGo fuel (Cmd.name sub) sub
              (if semantic_group then parent else some ctx)
              nested2 Option.none false false)
        else []
      if hide_header then
        (if nested2 = some Nested.none_ ∨ nested2 = some Nested.short then
           [DNode.par [DNode.parsed resultLines]]
         else []) ++ subNodes
      else
        [DNode.sect (commandPath ctx) name (DNode.parsed resultLines :: subNodes)]

/-- `ClickDirective._generate_nodes`. -/
def _generate_nodes (name : Str) (command : Cmd) (parent : Option Ctx)
    (nestedMode : Option Nested) (commands : Option (List Str))
    (semantic_group : Bool) (hide_header : Bool) : List DNode :=
  genNodesGo (cmdSize command) name command parent nestedMode commands
    semantic_group hide_header

/-! ### The directive: module loading and `run` -/

/-- A Python object obtained from a module attribute: either a click
Command/Group instance or something else, carrying its type display text. -/
inductive PyObj
  | clickCommand (c : Cmd)
  | other (typeStr : Str)

/-- Outcome of importing a module: either the import machinery raised (or
called `sys.exit`, distinguished by the flag, with a traceback text), or the
module's attribute table. -/
inductive ModImport
  | fail (sysExit : Bool) (tb : Str)
  | ok (attrs : List (Str × PyObj))

/-- The import environment the directive runs against. -/
structure World where
  modules : Str → ModImport

/-- Python `module_path.split(':', 1)`, as `none` when there is no colon
(in which case the Python unpacking raises ValueError). -/
def splitColon1 : Str → Option (Str × Str)
  | [] => Option.none
  | c :: rest =>
    if c == ':' then some ([], rest)
    else
      match splitColon1 rest with
      | some (m, a) => some (c :: m, a)
      | Option.none => Option.none

def dq : Char := Char.ofNat 34

def notFormatMsg (path : Str) : Str :=
  dq :: path ++ dq :: S " is not of format " ++ dq :: S "module:parser" ++ [dq]

def importFailMsg (attr moduleName : Str) (sysExit : Bool) (tb : Str) : Str :=
  S "Failed to import " ++ dq :: attr ++ dq :: S " from " ++ dq :: moduleName ++
  dq :: S ". " ++
  (if sysExit then S "The module appeared to call sys.exit()"
   else S "The following exception was raised:" ++ nl :: tb)

def noAttrMsg (moduleName attr : Str) : Str :=
  S "Module " ++ dq :: moduleName ++ dq :: S " has no attribute " ++
  dq :: attr ++ [dq]

def notCommandMsg (typeStr path : Str) : Str :=
  dq :: typeStr ++ dq :: S " of type " ++ dq :: path ++
  dq :: S " is not click.Command or click.Group." ++ dq :: S "click.BaseCommand" ++ [dq]

def progMsg : Str := S ":prog: must be specified"

def mutexMsg : Str :=
  sq :: S ":nested:" ++ sq :: S " and " ++ sq :: S ":show-nested:" ++
  sq :: S " are mutually exclusive"

/-- `ClickDirective._load_module`: split the path, import the module (all
exceptions and `sys.exit` become directive errors), check the attribute.
The autodoc mock context manager is external and not modelled. -/
def _load_module (w : World) (module_path : Str) : Except Str PyObj :=
  match splitColon1 module_path with
  | Option.none => Except.error (notFormatMsg module_path)
  | some (moduleName, attrName) =>
    match w.modules moduleName with
    | ModImport.fail sysExit tb =>
      Except.error (importFailMsg attrName moduleName sysExit tb)
    | ModImport.ok attrs =>
      match attrs.find? (fun p => p.fst == attrName) with
      | Option.none => Except.error (noAttrMsg moduleName attrName)
      | some p => Except.ok p.snd

/-- The directive option values: `nestedOpt` is `some v` when `:nested:` is
supplied, where `v` is the converted value (which is Python `None` when the
option was given without an argument); the flags record presence. -/
structure DirOptions where
  prog : Option Str
  nestedOpt : Option (Option Nested)
  commands : Option Str
  show_nested : Bool
  hide_header : Bool
  post_process : Option Str

structure Directive where
  arguments0 : Str
  options : DirOptions

/-- Python `s.split(',')`. -/
def splitComma : Str → List Str
  | [] => [[]]
  | c :: rest =>
    if c == ',' then [] :: splitComma rest
    else
      match splitComma rest with
      | [] => [[c]]
      | l :: ls => (c :: l) :: ls

/-- `ClickDirective.run`: load the module, check the object type and the
`:prog:` option, load the post-processor if requested (its effect on the
generated nodes is an arbitrary external callable and is not modelled),
reject `:show-nested:` combined with a truthy `:nested:` value, then
generate the nodes.  The deprecation warning is not modelled. -/
def run (w : World) (d : Directive) : Except Str (List DNode) :=
  match _load_module w d.arguments0 with
  | Except.error e => Except.error e
  | Except.ok obj =>
    match obj with
    | PyObj.other t => Except.error (notCommandMsg t d.arguments0)
    | PyObj.clickCommand command =>
      match d.options.prog with
      | Option.none => Except.error progMsg
      | some prog_name =>
        let postLoad : Except Str Unit :=
          match d.options.post_process with
          | Option.none => Except.ok ()
          | some pp =>
            match _load_module w pp with
            | Except.error e => Except.error e
            | Except.ok _ => Except.ok ()
        match postLoad with
        | Except.error e => Except.error e
        | Except.ok _ =>
          let nestedGet : Option Nested :=
            match d.options.nestedOpt with
            | some v => v
            | Option.none => Option.none
          if d.options.show_nested && nestedGet.isSome then
            Except.error mutexMsg
          else
            let nestedFinal := if d.options.show_nested then some Nested.full
              else nestedGet
            let commands :=
              if pyTruthy d.options.commands then
                some ((splitComma (optGet d.options.commands)).map pyStrip)
              else Option.none
            Except.ok (_generate_nodes prog_name command Option.none nestedFinal
              commands false d.options.hide_header)

/-- Whether a result is a directive-level error with the given message
(a Boolean matcher, so concrete runs can be checked by evaluation). -/
def isErrMsg (r : Except Str α) (m : Str) : Bool :=
  match r with
  | Except.error e => e == m
  | Except.ok _ => false

/-- The `nested` option conversion function of the directive: any value other
than the four mode strings or an absent value is rejected (docutils reports
that as a directive option error during option parsing). -/
def nestedConvert (argument : Option Str) : Except Unit (Option Nested) :=
  match argument with
  | Option.none => Except.ok Option.none
  | some s =>
    if s == S "complete" then Except.ok (some Nested.complete)
    else if s == S "full" then Except.ok (some Nested.full)
    else if s == S "short" then Except.ok (some Nested.short)
    else if s == S "none" then Except.ok (some Nested.none_)
    else Except.error ()

/-! ### Error-message shape predicates and concrete fixtures -/

/-- Boolean prefix test on character lists. -/
def strStartsWith : Str → Str → Bool
  | _, [] => true
  | [], _ :: _ => false
  | c :: cs, p :: ps => c == p && strStartsWith cs ps

/-- Boolean substring test on character lists. -/
def strContainsStr : Str → Str → Bool
  | [], pat => strStartsWith [] pat
  | c :: cs, pat => strStartsWith (c :: cs) pat || strContainsStr cs pat

/-- The error shape of a failed import reported by `_load_module`. -/
def isImportFailMsgB (e : Str) : Bool := strStartsWith e (S "Failed to import ")

/-- The error shape of a missing attribute reported by `_load_module`. -/
def isNoAttrMsgB (e : Str) : Bool :=
  strStartsWith e (S "Module ") && strContainsStr e (S " has no attribute ")

/-- The error shape of a malformed module path. -/
def isNotFormatMsgB (e : Str) : Bool := strContainsStr e (S " is not of format ")

/-- The error shape of a loaded object that is not a click Command or Group. -/
def isNotCommandMsgB (e : Str) : Bool :=
  strContainsStr e (S " is not click.Command or click.Group.")

/-- A minimal click command used by the concrete runs. -/
def cmd0 : Cmd :=
  Cmd.mk (S "cli") (some (S "A cli.")) Option.none Option.none false [] []
    [S "[OPTIONS]"]

/-- An import environment exposing `cmd0` as `mod:cli` plus a non-command
attribute, and failing every other module. -/
def world0 : World :=
  World.mk (fun m =>
    if m == S "mod" then
      ModImport.ok [(S "cli", PyObj.clickCommand cmd0),
                    (S "obj", PyObj.other (S "<class stuff>"))]
    else ModImport.fail false (S "Traceback"))

/-- A directive invocation that omits `:prog:`. -/
def dirNoProg : Directive :=
  Directive.mk (S "mod:cli")
    (DirOptions.mk Option.none Option.none Option.none false false Option.none)

/-- Both `:nested:` (with a value) and `:show-nested:` supplied. -/
def dirMutex : Directive :=
  Directive.mk (S "mod:cli")
    (DirOptions.mk (some (S "cli")) (some (some Nested.short)) Option.none true
      false Option.none)

/-- Both `:nested:` (without a value) and `:show-nested:` supplied. -/
def dirBoth : Directive :=
  Directive.mk (S "mod:cli")
    (DirOptions.mk (some (S "cli")) (some Option.none) Option.none true false
      Option.none)

/-- An option parameter with no envvar, used by the mutation fixtures. -/
def optX : Opt :=
  Opt.mk [S "--x"] [] (S "x") Option.none false false false Option.none
    SDv.unset DefaultV.noneV Option.none false Option.none

def cmdX : Cmd :=
  Cmd.mk (S "c") Option.none Option.none Option.none false [Param.opt optX] [] []

/-- A context for `cmdX` carrying an auto-envvar prefix. -/
def ctxPfx : Ctx := Ctx.root cmdX (S "c") (some (S "PFX")) Option.none

/-- A context for `cmdX` without an auto-envvar prefix. -/
def ctxNoPfx : Ctx := Ctx.root cmdX (S "c") Option.none Option.none

/-- A hidden command and a visible group holding it plus a visible sibling. -/
def cmdHidden : Cmd :=
  Cmd.mk (S "ghost") (some (S "Hidden one.")) Option.none Option.none true []
    [] [S "[OPTIONS]"]

def cmdSub : Cmd :=
  Cmd.mk (S "sub") (some (S "A subcommand.")) Option.none Option.none false []
    [] [S "[OPTIONS]"]

def cmdGroup : Cmd :=
  Cmd.mk (S "grp") (some (S "A group.")) Option.none Option.none false []
    [(S "sub", cmdSub), (S "ghost", cmdHidden)] [S "[OPTIONS] COMMAND [ARGS]..."]

def ctxHidden : Ctx := Ctx.root cmdHidden (S "ghost") Option.none Option.none

def ctxGroup : Ctx := Ctx.root cmdGroup (S "grp") Option.none Option.none

/-- A help string in which removing the leftmost ANSI match creates a new
escape sequence (the single-pass residual). -/
def badHelp : Str := [escChar, '[', escChar, '[', '3', '1', 'm', '3', '1', 'm']

def cmdBad : Cmd :=
  Cmd.mk (S "bad") (some badHelp) Option.none Option.none false [] [] []

def ctxBad : Ctx := Ctx.root cmdBad (S "bad") Option.none Option.none

/-- A properly colour-coded option used as the C2 witness input. -/
def coloredStr : Str :=
  [escChar, '[', '3', '1', 'm'] ++ S "red" ++ [escChar, '[', '0', 'm']

def optColor : Opt :=
  Opt.mk [S "--color", S "-c"] [] (S "color") (some (S "<MODE>")) false false
    false (some coloredStr) SDv.unset DefaultV.noneV Option.none false
    Option.none

def cmdColor : Cmd :=
  Cmd.mk (S "paint") (some coloredStr) Option.none (some coloredStr) false
    [Param.opt optColor] [] [S "[OPTIONS]"]

def ctxColor : Ctx := Ctx.root cmdColor (S "paint") Option.none Option.none

/-! ### Well-formed line sequences (for the `_indent` round trip) -/

/-- A line terminator as `splitKeep` produces it: a lone line-break
character, a bare carriage return, or the CR LF pair. -/
def IsTerm (t : List Char) : Prop :=
  (∃ c, isLB c = true ∧ t = [c]) ∨ t = [cr] ∨ t = [cr, nl]

/-- No line-break character (and no carriage return) inside. -/
def BreakFree (l : List Char) : Prop :=
  ∀ c ∈ l, isLB c = false ∧ c ≠ cr

/-- The first line of the list, if any, does not begin with LF. -/
def headNotNL : List (List Char) → Prop
  | (c :: _) :: _ => c ≠ nl
  | _ => True

/-- The first character of the string, if any, is not LF. -/
def strHeadNotNL : List Char → Prop
  | c :: _ => c ≠ nl
  | [] => True

/-- The shape of the line lists produced by `splitKeep`: every line is a
break-free body followed by a terminator, except that the final line may be
an unterminated nonempty break-free body; a line ending in a bare CR is
never followed by a line starting with LF. -/
inductive GoodSeq : List (List Char) → Prop
  | nil : GoodSeq []
  | last (l : List Char) (hne : l ≠ []) (hb : BreakFree l) : GoodSeq [l]
  | cons (body term : List Char) (rest : List (List Char))
      (hb : BreakFree body) (ht : IsTerm term)
      (hadj : term = [cr] → headNotNL rest)
      (hr : GoodSeq rest) : GoodSeq ((body ++ term) :: rest)

end SphinxClick

namespace SphinxClick

/-! ## Theorems

First generic helpers, then the claim theorems (one per claim, with
witnesses and counterexamples as required). -/

theorem strStartsWith_nil (e : Str) : strStartsWith e [] = true := by
  cases e <;> rfl

theorem strStartsWith_append (p rest : Str) :
    strStartsWith (p ++ rest) p = true := by
  induction p with
  | nil => simpa using strStartsWith_nil rest
  | cons c cs ih => simp [strStartsWith, ih]

theorem strStartsWith_of_eq {e p r : Str} (h : e = p ++ r) :
    strStartsWith e p = true := by
  subst h; exact strStartsWith_append p r

theorem strContainsStr_middle (a pat b : Str) :
    strContainsStr (a ++ (pat ++ b)) pat = true := by
  induction a with
  | nil =>
    cases pat with
    | nil =>
      cases b with
      | nil => rfl
      | cons c cs => simp [strContainsStr, strStartsWith]
    | cons p ps =>
      simp only [List.nil_append, List.cons_append, strContainsStr]
      have h := strStartsWith_append (p :: ps) b
      simp only [List.cons_append] at h
      simp [h]
  | cons c cs ih => simp [strContainsStr, ih]

theorem strContainsStr_of_eq {e a pat b : Str} (h : e = a ++ (pat ++ b)) :
    strContainsStr e pat = true := by
  subst h; exact strContainsStr_middle a pat b

theorem isNotFormatMsgB_true (path : Str) :
    isNotFormatMsgB (notFormatMsg path) = true := by
  refine strContainsStr_of_eq (a := dq :: path ++ [dq])
    (b := dq :: S "module:parser" ++ [dq]) ?_
  simp [notFormatMsg]

theorem isImportFailMsgB_true (a m : Str) (se : Bool) (tb : Str) :
    isImportFailMsgB (importFailMsg a m se tb) = true := by
  refine strStartsWith_of_eq (r := dq :: a ++ dq :: S " from " ++ dq :: m ++
    dq :: S ". " ++ (if se then S "The module appeared to call sys.exit()"
      else S "The following exception was raised:" ++ nl :: tb)) ?_
  simp [importFailMsg]

theorem isNoAttrMsgB_true (m a : Str) :
    isNoAttrMsgB (noAttrMsg m a) = true := by
  rw [isNoAttrMsgB, Bool.and_eq_true]
  constructor
  · refine strStartsWith_of_eq
      (r := dq :: m ++ dq :: S " has no attribute " ++ dq :: a ++ [dq]) ?_
    simp [noAttrMsg]
  · refine strContainsStr_of_eq (a := S "Module " ++ dq :: m ++ [dq])
      (b := dq :: a ++ [dq]) ?_
    simp [noAttrMsg]

theorem isNotCommandMsgB_true (t p : Str) :
    isNotCommandMsgB (notCommandMsg t p) = true := by
  refine strContainsStr_of_eq (a := dq :: t ++ dq :: S " of type " ++ dq :: p ++ [dq])
    (b := dq :: S "click.BaseCommand" ++ [dq]) ?_
  simp [notCommandMsg]

/-- Every error produced by `_load_module` has one of the three load shapes. -/
theorem load_module_error_shape (w : World) (p e : Str)
    (h : _load_module w p = Except.error e) :
    isNotFormatMsgB e = true ∨ isImportFailMsgB e = true ∨ isNoAttrMsgB e = true := by
  cases hs : splitColon1 p with
  | none =>
    simp only [_load_module, hs, Except.error.injEq] at h
    exact Or.inl (h ▸ isNotFormatMsgB_true p)
  | some ma =>
    obtain ⟨m, a⟩ := ma
    cases hm : w.modules m with
    | fail se tb =>
      simp only [_load_module, hs, hm, Except.error.injEq] at h
      exact Or.inr (Or.inl (h ▸ isImportFailMsgB_true a m se tb))
    | ok attrs =>
      cases hf : attrs.find? (fun q => q.fst == a) with
      | none =>
        simp only [_load_module, hs, hm, hf, Except.error.injEq] at h
        exact Or.inr (Or.inr (h ▸ isNoAttrMsgB_true m a))
      | some q =>
        simp only [_load_module, hs, hm, hf] at h
        exact absurd h (by simp)

/-- C6: a module whose import raises (or calls sys.exit) makes `_load_module`
return a directive-level error whose message names both the attribute and the
module; the underlying exception is not propagated (the result is an error
value of the directive, not an exception). -/
theorem c6_import_failure (w : World) (path moduleName attrName : Str)
    (sysExit : Bool) (tb : Str)
    (hsplit : splitColon1 path = some (moduleName, attrName))
    (hfail : w.modules moduleName = ModImport.fail sysExit tb) :
    _load_module w path =
      Except.error (importFailMsg attrName moduleName sysExit tb) ∧
    strContainsStr (importFailMsg attrName moduleName sysExit tb) moduleName = true ∧
    strContainsStr (importFailMsg attrName moduleName sysExit tb) attrName = true := by
  refine ⟨?_, ?_, ?_⟩
  · simp only [_load_module, hsplit, hfail]
  · refine strContainsStr_of_eq
      (a := S "Failed to import " ++ dq :: attrName ++ dq :: S " from " ++ [dq])
      (b := dq :: S ". " ++ (if sysExit then S "The module appeared to call sys.exit()"
        else S "The following exception was raised:" ++ nl :: tb)) ?_
    simp [importFailMsg]
  · refine strContainsStr_of_eq (a := S "Failed to import " ++ [dq])
      (b := dq :: S " from " ++ dq :: moduleName ++ dq :: S ". " ++
        (if sysExit then S "The module appeared to call sys.exit()"
         else S "The following exception was raised:" ++ nl :: tb)) ?_
    simp [importFailMsg]

theorem c6_witness :
    splitColon1 (S "other:cli") = some (S "other", S "cli") ∧
    (world0.modules (S "other") = ModImport.fail false (S "Traceback")) ∧
    (_load_module world0 (S "other:cli") =
       Except.error (importFailMsg (S "cli") (S "other") false (S "Traceback")) ∧
     strContainsStr (importFailMsg (S "cli") (S "other") false (S "Traceback"))
       (S "other") = true ∧
     strContainsStr (importFailMsg (S "cli") (S "other") false (S "Traceback"))
       (S "cli") = true) :=
  ⟨rfl, rfl,
   c6_import_failure world0 (S "other:cli") (S "other") (S "cli") false
     (S "Traceback") rfl rfl⟩

/-- C7: a module that imports but lacks the requested attribute makes
`_load_module` return a directive-level error naming the module and the
missing attribute. -/
theorem c7_missing_attribute (w : World) (path moduleName attrName : Str)
    (attrs : List (Str × PyObj))
    (hsplit : splitColon1 path = some (moduleName, attrName))
    (hok : w.modules moduleName = ModImport.ok attrs)
    (hmiss : attrs.find? (fun p => p.fst == attrName) = Option.none) :
    _load_module w path = Except.error (noAttrMsg moduleName attrName) ∧
    strContainsStr (noAttrMsg moduleName attrName) moduleName = true ∧
    strContainsStr (noAttrMsg moduleName attrName) attrName = true := by
  refine ⟨?_, ?_, ?_⟩
  · simp only [_load_module, hsplit, hok, hmiss]
  · refine strContainsStr_of_eq (a := S "Module " ++ [dq])
      (b := dq :: S " has no attribute " ++ dq :: attrName ++ [dq]) ?_
    simp [noAttrMsg]
  · refine strContainsStr_of_eq
      (a := S "Module " ++ dq :: moduleName ++ dq :: S " has no attribute " ++ [dq])
      (b := [dq]) ?_
    simp [noAttrMsg]

theorem c7_witness :
    splitColon1 (S "mod:nope") = some (S "mod", S "nope") ∧
    (world0.modules (S "mod") =
      ModImport.ok [(S "cli", PyObj.clickCommand cmd0),
                    (S "obj", PyObj.other (S "<class stuff>"))]) ∧
    (_load_module world0 (S "mod:nope") =
       Except.error (noAttrMsg (S "mod") (S "nope")) ∧
     strContainsStr (noAttrMsg (S "mod") (S "nope")) (S "mod") = true ∧
     strContainsStr (noAttrMsg (S "mod") (S "nope")) (S "nope") = true) :=
  ⟨rfl, rfl,
   c7_missing_attribute world0 (S "mod:nope") (S "mod") (S "nope")
     [(S "cli", PyObj.clickCommand cmd0), (S "obj", PyObj.other (S "<class stuff>"))]
     rfl rfl rfl⟩


/-- C1 (amended): every directive-level error raised by `run` is one of six
shapes: malformed module path, import failure, missing attribute on the
module, loaded object is not a click Command/Group, missing `:prog:` option,
or mutually-exclusive options.  (Invalid `:nested:` values are additionally
rejected during option conversion, before `run`; see `nestedConvert`.) -/
theorem c1_error_modes (w : World) (d : Directive) (e : Str)
    (h : run w d = Except.error e) :
    isNotFormatMsgB e = true ∨ isImportFailMsgB e = true ∨
    isNoAttrMsgB e = true ∨ isNotCommandMsgB e = true ∨
    e = progMsg ∨ e = mutexMsg := by
  cases hl : _load_module w d.arguments0 with
  | error e1 =>
    simp only [run, hl, Except.error.injEq] at h
    rcases load_module_error_shape w d.arguments0 e1 hl with h1 | h1 | h1 <;>
      rw [← h] <;> tauto
  | ok obj =>
    cases obj with
    | other t =>
      simp only [run, hl, Except.error.injEq] at h
      exact Or.inr (Or.inr (Or.inr (Or.inl (h ▸ isNotCommandMsgB_true t d.arguments0))))
    | clickCommand command =>
      cases hp : d.options.prog with
      | none =>
        simp only [run, hl, hp, Except.error.injEq] at h
        exact Or.inr (Or.inr (Or.inr (Or.inr (Or.inl h.symm))))
      | some prog_name =>
        cases hpp : d.options.post_process with
        | none =>
          simp only [run, hl, hp, hpp] at h
          split at h
          · simp only [Except.error.injEq] at h
            exact Or.inr (Or.inr (Or.inr (Or.inr (Or.inr h.symm))))
          · exact absurd h (by simp)
        | some pp =>
          cases hl2 : _load_module w pp with
          | error e2 =>
            simp only [run, hl, hp, hpp, hl2, Except.error.injEq] at h
            rcases load_module_error_shape w pp e2 hl2 with h1 | h1 | h1 <;>
              rw [← h] <;> tauto
          | ok u =>
            simp only [run, hl, hp, hpp, hl2] at h
            split at h
            · simp only [Except.error.injEq] at h
              exact Or.inr (Or.inr (Or.inr (Or.inr (Or.inr h.symm))))
            · exact absurd h (by simp)

/-- C1 counterexample: a directive invocation without `:prog:` raises the
directive-level error ":prog: must be specified", which matches none of the
three failure shapes the spec enumerates (module-import failure, missing
attribute, mutually-exclusive options). -/
theorem c1_counterexample :
    run world0 dirNoProg = Except.error progMsg ∧
    isImportFailMsgB progMsg = false ∧ isNoAttrMsgB progMsg = false ∧
    (progMsg == mutexMsg) = false :=
  ⟨rfl, by decide, by decide, by decide⟩

theorem c1_witness :
    run world0 dirNoProg = Except.error progMsg ∧
    (isNotFormatMsgB progMsg = true ∨ isImportFailMsgB progMsg = true ∨
     isNoAttrMsgB progMsg = true ∨ isNotCommandMsgB progMsg = true ∨
     progMsg = progMsg ∨ progMsg = mutexMsg) :=
  ⟨rfl, c1_error_modes world0 dirNoProg progMsg rfl⟩

/-- C5 (amended): when both `:nested:` and `:show-nested:` are supplied AND
the `:nested:` option carries an actual value (it can also be supplied with
no value, converting to None), and the validations preceding the check pass
(the module loads to a click command, `:prog:` is given, the post-processor
if any loads), `run` raises the mutual-exclusion directive error — and hence
produces no output nodes. -/
theorem c5_mutex_error (w : World) (d : Directive) (command : Cmd) (v : Nested)
    (hload : _load_module w d.arguments0 = Except.ok (PyObj.clickCommand command))
    (hprog : d.options.prog.isSome = true)
    (hpost : d.options.post_process = Option.none ∨
      ∃ pp obj, d.options.post_process = some pp ∧ _load_module w pp = Except.ok obj)
    (hshow : d.options.show_nested = true)
    (hnested : d.options.nestedOpt = some (some v)) :
    run w d = Except.error mutexMsg := by
  obtain ⟨prog_name, hp⟩ := Option.isSome_iff_exists.mp hprog
  rcases hpost with hpp | ⟨pp, obj, hpp, hl2⟩
  · simp [run, hload, hp, hpp, hshow, hnested]
  · simp [run, hload, hp, hpp, hl2, hshow, hnested]

theorem c5_witness :
    _load_module world0 dirMutex.arguments0 = Except.ok (PyObj.clickCommand cmd0) ∧
    dirMutex.options.prog.isSome = true ∧
    dirMutex.options.post_process = Option.none ∧
    dirMutex.options.show_nested = true ∧
    dirMutex.options.nestedOpt = some (some Nested.short) ∧
    run world0 dirMutex = Except.error mutexMsg :=
  ⟨rfl, rfl, rfl, rfl, rfl,
   c5_mutex_error world0 dirMutex cmd0 Nested.short rfl rfl (Or.inl rfl) rfl rfl⟩

/-- C5 counterexample: `:show-nested:` together with `:nested:` supplied
without a value (both options present in the invocation) raises no error at
all — run succeeds and returns the generated nodes. -/
theorem c5_counterexample :
    run world0 dirBoth = Except.ok (_generate_nodes (S "cli") cmd0 Option.none
      (some Nested.full) Option.none false false) := rfl


/-! ### Sorting and membership helpers -/

theorem mem_insStable {le : α → α → Bool} {z x : α} {l : List α}
    (h : z ∈ insStable le x l) : z = x ∨ z ∈ l := by
  induction l with
  | nil => simpa [insStable] using h
  | cons b bs ih =>
    simp only [insStable] at h
    split at h
    · simpa using h
    · rcases List.mem_cons.mp h with h1 | h2
      · exact Or.inr (by simp [h1])
      · rcases ih h2 with h3 | h4
        · exact Or.inl h3
        · exact Or.inr (List.mem_cons_of_mem _ h4)

theorem insStable_perm (le : α → α → Bool) (a : α) (l : List α) :
    (insStable le a l).Perm (a :: l) := by
  induction l with
  | nil => simp [insStable]
  | cons b bs ih =>
    simp only [insStable]
    split
    · exact List.Perm.refl _
    · exact (ih.cons b).trans (List.Perm.swap a b bs)

theorem pySorted_perm (le : α → α → Bool) (l : List α) :
    (pySorted le l).Perm l := by
  induction l with
  | nil => simp [pySorted]
  | cons a as ih =>
    exact (insStable_perm le a (pySorted le as)).trans (ih.cons a)

theorem mem_pySorted {le : α → α → Bool} {a : α} {l : List α}
    (h : a ∈ pySorted le l) : a ∈ l :=
  (pySorted_perm le l).mem_iff.mp h

theorem pairwise_insStable {le : α → α → Bool} {a : α} {l : List α}
    (htot : ∀ x y, le x y = true ∨ le y x = true)
    (htrans : ∀ x y z, le x y = true → le y z = true → le x z = true)
    (h : l.Pairwise (fun x y => le x y = true)) :
    (insStable le a l).Pairwise (fun x y => le x y = true) := by
  induction l with
  | nil => simp [insStable]
  | cons b bs ih =>
    rcases List.pairwise_cons.mp h with ⟨hb, hbs⟩
    simp only [insStable]
    split
    next hab =>
      refine List.pairwise_cons.mpr ⟨?_, h⟩
      intro z hz
      rcases List.mem_cons.mp hz with rfl | hz2
      · exact hab
      · exact htrans a b z hab (hb z hz2)
    next hab =>
      have hba : le b a = true := by
        rcases htot a b with h1 | h1
        · exact absurd h1 hab
        · exact h1
      refine List.pairwise_cons.mpr ⟨?_, ih hbs⟩
      intro z hz
      rcases mem_insStable hz with rfl | hz2
      · exact hba
      · exact hb z hz2

theorem pairwise_pySorted {le : α → α → Bool} (l : List α)
    (htot : ∀ x y, le x y = true ∨ le y x = true)
    (htrans : ∀ x y z, le x y = true → le y z = true → le x z = true) :
    (pySorted le l).Pairwise (fun x y => le x y = true) := by
  induction l with
  | nil => simp [pySorted]
  | cons a as ih => exact pairwise_insStable htot htrans ih

theorem strLe_total (a b : Str) : strLe a b = true ∨ strLe b a = true := by
  induction a generalizing b with
  | nil => exact Or.inl rfl
  | cons x xs ih =>
    cases b with
    | nil => exact Or.inr rfl
    | cons y ys =>
      by_cases hxy : x = y
      · subst hxy
        simpa [strLe] using ih ys
      · rcases lt_or_gt_of_ne hxy with hlt | hgt
        · exact Or.inl (by simp [strLe, hxy, hlt])
        · refine Or.inr ?_
          have hne : ¬ y = x := fun h => hxy h.symm
          simp [strLe, hne, hgt]

theorem strLe_trans (a b c : Str) (h1 : strLe a b = true)
    (h2 : strLe b c = true) : strLe a c = true := by
  induction a generalizing b c with
  | nil => rfl
  | cons x xs ih =>
    cases b with
    | nil => simp [strLe] at h1
    | cons y ys =>
      cases c with
      | nil => simp [strLe] at h2
      | cons z zs =>
        simp only [strLe] at h1 h2 ⊢
        by_cases hxy : x = y
        · subst hxy
          rw [if_pos (by simp)] at h1
          by_cases hxz : x = z
          · subst hxz
            rw [if_pos (by simp)] at h2 ⊢
            exact ih ys zs h1 h2
          · rw [if_neg (by simpa using hxz)] at h2 ⊢
            exact h2
        · rw [if_neg (by simpa using hxy)] at h1
          by_cases hyz : y = z
          · subst hyz
            rw [if_neg (by simpa using hxy)]
            exact h1
          · rw [if_neg (by simpa using hyz)] at h2
            have hxz : x < z :=
              lt_trans (of_decide_eq_true h1) (of_decide_eq_true h2)
            rw [if_neg (by simpa using (ne_of_lt hxz))]
            exact decide_eq_true hxz

theorem lookupLoop_eq_filterMap (lookup : List (Str × Cmd)) (cs : List Str) :
    lookupLoop lookup cs =
      cs.filterMap (fun c => (lookup.find? (fun p => p.fst == c)).map Prod.snd) := by
  induction cs with
  | nil => rfl
  | cons x xs ih =>
    cases hf : lookup.find? (fun p => p.fst == x) with
    | none => simp [lookupLoop, hf, ih]
    | some p => simp [lookupLoop, hf, ih]

theorem mem_lookupLoop {lookup : List (Str × Cmd)} {cs : List Str} {c : Cmd}
    (h : c ∈ lookupLoop lookup cs) : ∃ p ∈ lookup, c = p.snd := by
  induction cs with
  | nil => simp [lookupLoop] at h
  | cons x xs ih =>
    simp only [lookupLoop] at h
    revert h
    cases hf : lookup.find? (fun p => p.fst == x) with
    | none => exact ih
    | some p =>
      intro h
      rcases List.mem_cons.mp h with h1 | h2
      · exact ⟨p, List.mem_of_find?_eq_some hf, h1⟩
      · exact ih h2

/-! ### C9: sub-command selection -/

/-- C9: with an explicit name list `_filter_commands` resolves the names in
exactly the given order, silently dropping unresolvable ones (the filterMap
characterization); with no list it returns a permutation of all sub-command
values that is sorted by command name. -/
theorem c9_filter_commands (ctx : Ctx) :
    ((_filter_commands ctx Option.none).Perm
       ((Cmd.commands (Ctx.command ctx)).map Prod.snd)) ∧
    ((_filter_commands ctx Option.none).Pairwise
       (fun a b => strLe (Cmd.name a) (Cmd.name b) = true)) ∧
    (∀ cs, _filter_commands ctx (some cs) =
      cs.filterMap (fun c =>
        ((Cmd.commands (Ctx.command ctx)).find? (fun p => p.fst == c)).map
          Prod.snd)) := by
  refine ⟨?_, ?_, ?_⟩
  · exact pySorted_perm _ _
  · refine pairwise_pySorted _ ?_ ?_
    · intro x y; exact strLe_total _ _
    · intro x y z h1 h2; exact strLe_trans _ _ _ h1 h2
  · intro cs
    exact lookupLoop_eq_filterMap _ cs

/-! ### C3: the envvar mutation -/

theorem autoParams_eq_map (pfx : Str) (l : List Param) :
    autoParams pfx l = l.map (fun p =>
      if pyTruthy (Param.envvar p) then p
      else Param.setEnvvar p (pfx ++ uscore :: strUpper (Param.name p))) := by
  induction l with
  | nil => rfl
  | cons p rest ih => simp [autoParams, ih]

/-- C3 (amended): the formatting walk is read-only on the command and its
parameters except in `_format_envvars` under an auto-envvar prefix: there,
every parameter whose envvar is unset gets `PREFIX_NAME` permanently
assigned, while parameters with a truthy envvar (and, without a prefix, all
parameters) are left unchanged. -/
theorem c3_envvar_mutation (ctx : Ctx) :
    (Ctx.autoPfx ctx = Option.none →
      (_format_envvars ctx).snd = Cmd.params (Ctx.command ctx)) ∧
    (∀ pfx, Ctx.autoPfx ctx = some pfx →
      (_format_envvars ctx).snd = (Cmd.params (Ctx.command ctx)).map
        (fun p => if pyTruthy (Param.envvar p) then p
          else Param.setEnvvar p (pfx ++ uscore :: strUpper (Param.name p)))) := by
  constructor
  · intro h
    simp [_format_envvars, h]
  · intro pfx h
    simp [_format_envvars, h, autoParams_eq_map]

theorem c3_witness :
    Ctx.autoPfx ctxNoPfx = Option.none ∧
    (_format_envvars ctxNoPfx).snd = Cmd.params (Ctx.command ctxNoPfx) :=
  ⟨rfl, (c3_envvar_mutation ctxNoPfx).1 rfl⟩

/-- C3 counterexample: under an auto-envvar prefix, `_format_envvars` leaves
the parameter list changed — the envvar field of the parameter is no longer
the one the command started with, so formatting is not read-only. -/
theorem c3_counterexample :
    ¬ ((_format_envvars ctxPfx).snd = Cmd.params (Ctx.command ctxPfx)) ∧
    (_format_envvars ctxPfx).snd =
      [Param.opt (Opt.mk [S "--x"] [] (S "x") Option.none false false false
        Option.none SDv.unset DefaultV.noneV Option.none false
        (some (S "PFX_X")))] := by
  constructor
  · decide
  · decide

/-! ### C8: hidden commands -/

theorem genNodesGo_hidden (fuel : Nat) (name : Str) (command : Cmd)
    (parent : Option Ctx) (nm : Option Nested) (cs : Option (List Str))
    (sg hh : Bool) (h : Cmd.hidden command = true) :
    genNodesGo fuel name command parent nm cs sg hh = [] := by
  cases fuel with
  | zero => rfl
  | succ f => simp [genNodesGo, h]

theorem subcommandLoop_eq (l : List Cmd) :
    subcommandLoop l = (l.filter (fun c => !(Cmd.hidden c))).flatMap
      (fun c => _format_subcommand c ++ [[]]) := by
  induction l with
  | nil => rfl
  | cons c rest ih =>
    by_cases h : Cmd.hidden c = true
    · simp [subcommandLoop, h, List.filter_cons, ih]
    · have hb : Cmd.hidden c = false := by simpa using h
      simp [subcommandLoop, hb, List.filter_cons, ih]

/-- C8: a hidden command yields no lines from `_format_command` and
`_format_summary` and no nodes from `_generate_nodes`; and the inline
sub-command summary of any parent skips exactly its hidden sub-commands
(the filter characterization of the summary loop). -/
theorem c8_hidden_no_output (ctx : Ctx)
    (h : Cmd.hidden (Ctx.command ctx) = true) :
    (∀ nm cs hh, _format_command ctx nm cs hh = []) ∧
    (∀ cs hh, _format_summary ctx cs hh = []) ∧
    (∀ name parent nm cs sg hh,
      _generate_nodes name (Ctx.command ctx) parent nm cs sg hh = []) ∧
    (∀ ctx2 cs2, _format_subcommand_summary ctx2 cs2 =
      (if (_filter_commands ctx2 cs2).isEmpty then []
       else [S ".. rubric:: Commands", []]) ++
      ((_filter_commands ctx2 cs2).filter (fun c => !(Cmd.hidden c))).flatMap
        (fun c => _format_subcommand c ++ [[]])) := by
  refine ⟨?_, ?_, ?_, ?_⟩
  · intro nm cs hh
    simp [_format_command, h]
  · intro cs hh
    simp [_format_summary, h]
  · intro name parent nm cs sg hh
    exact genNodesGo_hidden _ _ _ _ _ _ _ _ h
  · intro ctx2 cs2
    simp [_format_subcommand_summary, subcommandLoop_eq]

theorem c8_witness :
    Cmd.hidden (Ctx.command ctxHidden) = true ∧
    ((∀ nm cs hh, _format_command ctxHidden nm cs hh = []) ∧
     (∀ cs hh, _format_summary ctxHidden cs hh = []) ∧
     (∀ name parent nm cs sg hh,
       _generate_nodes name (Ctx.command ctxHidden) parent nm cs sg hh = []) ∧
     (∀ ctx2 cs2, _format_subcommand_summary ctx2 cs2 =
       (if (_filter_commands ctx2 cs2).isEmpty then []
        else [S ".. rubric:: Commands", []]) ++
       ((_filter_commands ctx2 cs2).filter (fun c => !(Cmd.hidden c))).flatMap
         (fun c => _format_subcommand c ++ [[]]))) :=
  ⟨rfl, c8_hidden_no_output ctxHidden rfl⟩


/-! ### C4: nesting modes -/

theorem ctx_command_clickCtx (c : Cmd) (n : Str) (p : Option Ctx) :
    Ctx.command (clickCtx c n p) = c := by
  cases p <;> rfl

theorem flatMap_congr_mem {l : List α} {f g : α → List β}
    (h : ∀ x ∈ l, f x = g x) : l.flatMap f = l.flatMap g := by
  induction l with
  | nil => rfl
  | cons a as ih =>
    simp only [List.flatMap_cons]
    rw [h a (List.mem_cons_self a as),
      ih (fun x hx => h x (List.mem_cons_of_mem a hx))]

theorem cmdSize_pos (c : Cmd) : 1 ≤ cmdSize c := by
  cases c with
  | mk n hh sh ep hid ps cs up =>
    simp only [cmdSize]
    omega

theorem cmdSize_lt_of_mem_commands {p : Str × Cmd} {cmd : Cmd}
    (h : p ∈ Cmd.commands cmd) : cmdSize p.snd < cmdSize cmd := by
  cases cmd with
  | mk n hh sh ep hid ps cs up =>
    simp only [Cmd.commands] at h
    simp only [cmdSize]
    induction cs with
    | nil => simp at h
    | cons q rest ih =>
      obtain ⟨qs, qc⟩ := q
      simp only [cmdSizeList]
      rcases List.mem_cons.mp h with h1 | h2
      · subst h1
        simp only []
        omega
      · have h3 := ih h2
        omega

theorem cmdSize_lt_of_mem_fc {sub : Cmd} {ctx : Ctx} {cs : Option (List Str)}
    (h : sub ∈ _filter_commands ctx cs) :
    cmdSize sub < cmdSize (Ctx.command ctx) := by
  unfold _filter_commands at h
  cases cs with
  | none =>
    have h2 := mem_pySorted h
    rcases List.mem_map.mp h2 with ⟨p, hp, hps⟩
    exact hps ▸ cmdSize_lt_of_mem_commands hp
  | some l =>
    rcases mem_lookupLoop h with ⟨p, hp, hps⟩
    exact hps ▸ cmdSize_lt_of_mem_commands hp

theorem genNodesGo_stable (f1 : Nat) :
    ∀ (f2 : Nat) (name : Str) (command : Cmd) (parent : Option Ctx)
      (nm : Option Nested) (cs : Option (List Str)) (sg hh : Bool),
      cmdSize command ≤ f1 → cmdSize command ≤ f2 →
      genNodesGo f1 name command parent nm cs sg hh =
        genNodesGo f2 name command parent nm cs sg hh := by
  induction f1 with
  | zero =>
    intro f2 name command parent nm cs sg hh h1 h2
    have := cmdSize_pos command
    omega
  | succ a ih =>
    intro f2 name command parent nm cs sg hh h1 h2
    cases f2 with
    | zero =>
      have := cmdSize_pos command
      omega
    | succ b =>
      have hsub : ∀ (nested2 : Option Nested),
          (_filter_commands (clickCtx command name parent) cs).flatMap
            (fun sub => genNodesGo a (Cmd.name sub) sub
              (if sg then parent else some (clickCtx command name parent))
              nested2 Option.none false false) =
          (_filter_commands (clickCtx command name parent) cs).flatMap
            (fun sub => genNodesGo b (Cmd.name sub) sub
              (if sg then parent else some (clickCtx command name parent))
              nested2 Option.none false false) := by
        intro nested2
        apply flatMap_congr_mem
        intro sub hmem
        have hlt := cmdSize_lt_of_mem_fc hmem
        rw [ctx_command_clickCtx] at hlt
        exact ih b _ sub _ _ _ _ _ (by omega) (by omega)
      simp only [genNodesGo]
      rw [hsub]

theorem generate_nodes_eq_go (fuel : Nat) (name : Str) (command : Cmd)
    (parent : Option Ctx) (nm : Option Nested) (cs : Option (List Str))
    (sg hh : Bool) (h : cmdSize command ≤ fuel) :
    genNodesGo fuel name command parent nm cs sg hh =
      _generate_nodes name command parent nm cs sg hh :=
  genNodesGo_stable fuel (cmdSize command) name command parent nm cs sg hh h
    (Nat.le_refl _)

/-- One-step unfolding of `_generate_nodes` in full mode for a visible
command with headers shown: one section node holding the parsed
`_format_command` output followed by the recursively generated sub-command
nodes. -/
theorem generate_nodes_full (name : Str) (command : Cmd) (parent : Option Ctx)
    (cs : Option (List Str)) (hhid : Cmd.hidden command = false) :
    _generate_nodes name command parent (some Nested.full) cs false false =
      [DNode.sect (commandPath (clickCtx command name parent)) name
        (DNode.parsed (_format_command (clickCtx command name parent)
            (some Nested.full) cs false) ::
         (_filter_commands (clickCtx command name parent) cs).flatMap
           (fun sub => _generate_nodes (Cmd.name sub) sub
             (some (clickCtx command name parent)) (some Nested.full)
             Option.none false false))] := by
  obtain ⟨m, hm⟩ : ∃ m, cmdSize command = m + 1 := by
    have := cmdSize_pos command
    exact ⟨cmdSize command - 1, by omega⟩
  rw [_generate_nodes, hm]
  simp only [genNodesGo, hhid, Bool.false_eq_true, if_false, reduceCtorEq,
    Option.some.injEq, if_true]
  have hconv :
      (_filter_commands (clickCtx command name parent) cs).flatMap
        (fun sub => genNodesGo m (Cmd.name sub) sub
          (some (clickCtx command name parent)) (some Nested.full)
          Option.none false false) =
      (_filter_commands (clickCtx command name parent) cs).flatMap
        (fun sub => _generate_nodes (Cmd.name sub) sub
          (some (clickCtx command name parent)) (some Nested.full)
          Option.none false false) := by
    apply flatMap_congr_mem
    intro sub hmem
    have hlt := cmdSize_lt_of_mem_fc hmem
    rw [ctx_command_clickCtx] at hlt
    exact generate_nodes_eq_go m _ sub _ _ _ _ _ (by omega)
  simp [hconv]

/-- C4: the nesting mode controls sub-command rendering.  For a visible
group: in short mode the inline ".. rubric:: Commands" summary is present;
the short-mode output is exactly the full-mode output followed by the
summary (so the summary is absent in full mode); none mode equals full mode
with the header always shown (again no summary); in full mode the group
becomes one section node whose children end with the recursively generated
sub-command nodes, and every visible sub-command is rendered as a single
separate section node. -/
theorem c4_nesting_modes (ctx : Ctx) (cs : Option (List Str)) (sub : Cmd)
    (hhid : Cmd.hidden (Ctx.command ctx) = false)
    (hsub : sub ∈ _filter_commands ctx cs)
    (hsubhid : Cmd.hidden sub = false) :
    (∀ hh, S ".. rubric:: Commands" ∈
      _format_command ctx (some Nested.short) cs hh) ∧
    (∀ hh, _format_command ctx (some Nested.short) cs hh =
      _format_command ctx (some Nested.full) cs hh ++
      _format_subcommand_summary ctx cs) ∧
    (∀ hh, _format_command ctx (some Nested.none_) cs hh =
      _format_command ctx (some Nested.full) cs false) ∧
    (∀ name parent, _generate_nodes name (Ctx.command ctx) parent
        (some Nested.full) cs false false =
      [DNode.sect (commandPath (clickCtx (Ctx.command ctx) name parent)) name
        (DNode.parsed (_format_command (clickCtx (Ctx.command ctx) name parent)
            (some Nested.full) cs false) ::
         (_filter_commands (clickCtx (Ctx.command ctx) name parent) cs).flatMap
           (fun s2 => _generate_nodes (Cmd.name s2) s2
             (some (clickCtx (Ctx.command ctx) name parent)) (some Nested.full)
             Option.none false false))]) ∧
    (∀ name2 parent2, ∃ kids,
      _generate_nodes name2 sub parent2 (some Nested.full) Option.none
          false false =
        [DNode.sect (commandPath (clickCtx sub name2 parent2)) name2 kids]) := by
  have hobjs : (_filter_commands ctx cs).isEmpty = false := by
    cases hfc : _filter_commands ctx cs with
    | nil => rw [hfc] at hsub; simp at hsub
    | cons x xs => simp
  have key : ∀ hh, _format_command ctx (some Nested.short) cs hh =
      _format_command ctx (some Nested.full) cs hh ++
      _format_subcommand_summary ctx cs := by
    intro hh
    simp only [_format_command, hhid, Bool.false_eq_true, if_false,
      reduceCtorEq, Option.some.injEq, or_false, false_or]
    simp [List.append_assoc]
  refine ⟨?_, key, ?_, ?_, ?_⟩
  · intro hh
    rw [key hh]
    refine List.mem_append_right _ ?_
    simp only [_format_subcommand_summary, hobjs, Bool.false_eq_true, if_false]
    exact List.mem_append_left _ (by simp)
  · intro hh
    simp only [_format_command, hhid, Bool.false_eq_true, if_false,
      reduceCtorEq, Option.some.injEq, or_false, false_or, or_true, true_or]
  · intro name parent
    exact generate_nodes_full name (Ctx.command ctx) parent cs hhid
  · intro name2 parent2
    exact ⟨_, generate_nodes_full name2 sub parent2 Option.none hsubhid⟩

theorem mem_fc_witness : cmdSub ∈ _filter_commands ctxGroup Option.none := by
  rw [show _filter_commands ctxGroup Option.none = [cmdHidden, cmdSub] from rfl]
  exact List.mem_cons_of_mem _ (List.mem_cons_self _ _)

theorem c4_witness :
    Cmd.hidden (Ctx.command ctxGroup) = false ∧
    cmdSub ∈ _filter_commands ctxGroup Option.none ∧
    Cmd.hidden cmdSub = false ∧
    (∀ hh, S ".. rubric:: Commands" ∈
      _format_command ctxGroup (some Nested.short) Option.none hh) :=
  ⟨rfl, mem_fc_witness, rfl,
   (c4_nesting_modes ctxGroup Option.none cmdSub rfl mem_fc_witness rfl).1⟩


/-! ### C10: the `_indent` round trip -/

theorem splitKeep_ne_nil (c : Char) (rest : List Char) :
    ∃ t ls, splitKeep (c :: rest) = (c :: t) :: ls := by
  cases rest with
  | nil => exact ⟨[], [], rfl⟩
  | cons d rest2 =>
    by_cases h1 : (c == cr) = true
    · have hc : c = cr := by simpa using h1
      subst hc
      by_cases h2 : (d == nl) = true
      · have hd : d = nl := by simpa using h2
        subst hd
        exact ⟨[nl], splitKeep rest2, by simp [splitKeep]⟩
      · exact ⟨[], splitKeep (d :: rest2), by simp [splitKeep, h2]⟩
    · by_cases h3 : isLB c = true
      · exact ⟨[], splitKeep (d :: rest2), by simp [splitKeep, h1, h3]⟩
      · cases hm : splitKeep (d :: rest2) with
        | nil => exact ⟨[], [], by simp [splitKeep, h1, h3, hm]⟩
        | cons l ls => exact ⟨l, ls, by simp [splitKeep, h1, h3, hm]⟩

theorem goodSeq_head_ne_nil {l : List Char} {rest : List (List Char)}
    (h : GoodSeq (l :: rest)) : l ≠ [] := by
  cases h with
  | last _ hne _ => exact hne
  | cons body term rest hb ht hadj hr =>
    rcases ht with ⟨c, _, rfl⟩ | rfl | rfl <;> simp

theorem strHeadNotNL_joinAll {ls : List (List Char)}
    (hg : GoodSeq ls) (hh : headNotNL ls) : strHeadNotNL (joinAll ls) := by
  cases ls with
  | nil => trivial
  | cons l rest =>
    have hne := goodSeq_head_ne_nil hg
    cases l with
    | nil => exact absurd rfl hne
    | cons c t =>
      show strHeadNotNL ((c :: t) ++ joinAll rest)
      simpa [strHeadNotNL] using hh

theorem splitKeep_breakFree {l : List Char} (hb : BreakFree l) (hne : l ≠ []) :
    splitKeep l = [l] := by
  induction l with
  | nil => exact absurd rfl hne
  | cons c tail ih =>
    cases tail with
    | nil => rfl
    | cons d rest =>
      have hc := hb c (List.mem_cons_self _ _)
      have h1 : (c == cr) = false := by simp [hc.2]
      have h3 : isLB c = false := hc.1
      have htail : splitKeep (d :: rest) = [d :: rest] :=
        ih (fun x hx => hb x (List.mem_cons_of_mem _ hx)) (by simp)
      simp [splitKeep, h1, h3, htail]

theorem splitKeep_term_append {term X : List Char} (ht : IsTerm term)
    (hadj : term = [cr] → strHeadNotNL X) :
    splitKeep (term ++ X) = term :: splitKeep X := by
  rcases ht with ⟨c, hlb, rfl⟩ | rfl | rfl
  · have hccr : c ≠ cr := by
      intro h
      rw [h] at hlb
      exact absurd hlb (by decide)
    have hb : (c == cr) = false := by simp [hccr]
    cases X with
    | nil => simp [splitKeep]
    | cons x xs => simp [splitKeep, hb, hlb]
  · cases X with
    | nil => simp [splitKeep]
    | cons x xs =>
      have hx : x ≠ nl := hadj rfl
      have hxb : (x == nl) = false := by simp [hx]
      simp [splitKeep, hxb]
  · cases X with
    | nil => simp [splitKeep]
    | cons x xs => simp [splitKeep]

theorem splitKeep_body_append :
    ∀ (body term X : List Char), BreakFree body → IsTerm term →
      (term = [cr] → strHeadNotNL X) →
      splitKeep (body ++ (term ++ X)) = (body ++ term) :: splitKeep X := by
  intro body
  induction body with
  | nil =>
    intro term X _ ht hadj
    simpa using splitKeep_term_append ht hadj
  | cons b body2 ih =>
    intro term X hb ht hadj
    have hbb := hb b (List.mem_cons_self _ _)
    have h1 : (b == cr) = false := by simp [hbb.2]
    have h3 : isLB b = false := hbb.1
    have htail := ih term X (fun x hx => hb x (List.mem_cons_of_mem _ hx)) ht hadj
    have hterm_ne : term ≠ [] := by
      rcases ht with ⟨c, _, rfl⟩ | rfl | rfl <;> simp
    cases hi : body2 ++ (term ++ X) with
    | nil =>
      rcases List.append_eq_nil.mp hi with ⟨_, h2⟩
      rcases List.append_eq_nil.mp h2 with ⟨h4, _⟩
      exact absurd h4 hterm_ne
    | cons d rest2 =>
      rw [hi] at htail
      show splitKeep (b :: (body2 ++ (term ++ X))) = ((b :: body2) ++ term) :: splitKeep X
      rw [hi]
      simp [splitKeep, h1, h3, htail]

theorem goodSeq_splitKeep (s : List Char) : GoodSeq (splitKeep s) := by
  induction s using splitKeep.induct with
  | case1 => exact GoodSeq.nil
  | case2 c =>
    show GoodSeq [[c]]
    by_cases h1 : (c == cr) = true
    · have hc : c = cr := by simpa using h1
      subst hc
      have hg : GoodSeq (([] ++ [cr]) :: []) :=
        GoodSeq.cons [] [cr] [] (fun x hx => by simp at hx)
          (Or.inr (Or.inl rfl)) (fun _ => trivial) GoodSeq.nil
      simpa using hg
    · by_cases h3 : isLB c = true
      · have hg : GoodSeq (([] ++ [c]) :: []) :=
          GoodSeq.cons [] [c] [] (fun x hx => by simp at hx)
            (Or.inl ⟨c, h3, rfl⟩) (fun _ => trivial) GoodSeq.nil
        simpa using hg
      · refine GoodSeq.last [c] (by simp) ?_
        intro x hx
        rw [List.mem_singleton] at hx
        subst hx
        exact ⟨by simpa using h3, by simpa using h1⟩
  | case3 c d rest hc hd ih =>
    have hc2 : c = cr := by simpa using hc
    have hd2 : d = nl := by simpa using hd
    subst hc2; subst hd2
    rw [show splitKeep (cr :: nl :: rest) = [cr, nl] :: splitKeep rest from by
      simp [splitKeep]]
    have hg : GoodSeq (([] ++ [cr, nl]) :: splitKeep rest) :=
      GoodSeq.cons [] [cr, nl] (splitKeep rest) (fun x hx => by simp at hx)
        (Or.inr (Or.inr rfl)) (fun h => by simp at h) ih
    simpa using hg
  | case4 c d rest hc hd ih =>
    have hc2 : c = cr := by simpa using hc
    subst hc2
    rw [show splitKeep (cr :: d :: rest) = [cr] :: splitKeep (d :: rest) from by
      simp [splitKeep, hd]]
    have hadj : headNotNL (splitKeep (d :: rest)) := by
      obtain ⟨t, ls, hsp⟩ := splitKeep_ne_nil d rest
      rw [hsp]
      show d ≠ nl
      simpa using hd
    have hg : GoodSeq (([] ++ [cr]) :: splitKeep (d :: rest)) :=
      GoodSeq.cons [] [cr] (splitKeep (d :: rest)) (fun x hx => by simp at hx)
        (Or.inr (Or.inl rfl)) (fun _ => hadj) ih
    simpa using hg
  | case5 c d rest hc hlb ih =>
    rw [show splitKeep (c :: d :: rest) = [c] :: splitKeep (d :: rest) from by
      simp [splitKeep, hc, hlb]]
    have hadj : [c] = [cr] → headNotNL (splitKeep (d :: rest)) := by
      intro he
      simp only [List.cons.injEq, and_true] at he
      rw [he] at hlb
      exact absurd hlb (by decide)
    have hg : GoodSeq (([] ++ [c]) :: splitKeep (d :: rest)) :=
      GoodSeq.cons [] [c] (splitKeep (d :: rest)) (fun x hx => by simp at hx)
        (Or.inl ⟨c, hlb, rfl⟩) hadj ih
    simpa using hg
  | case6 c d rest hc hlb hm ih =>
    obtain ⟨t, ls, hsp⟩ := splitKeep_ne_nil d rest
    rw [hsp] at hm
    simp at hm
  | case7 c d rest hc hlb l ls hm ih =>
    rw [show splitKeep (c :: d :: rest) = (c :: l) :: ls from by
      simp [splitKeep, hc, hlb, hm]]
    rw [hm] at ih
    have hcfact : isLB c = false ∧ c ≠ cr := ⟨by simpa using hlb, by simpa using hc⟩
    cases ih with
    | last _l hne hb =>
      refine GoodSeq.last (c :: l) (by simp) ?_
      intro x hx
      rcases List.mem_cons.mp hx with rfl | hx2
      · exact hcfact
      · exact hb x hx2
    | cons body term _rest hb ht hadj hr =>
      have hbf : BreakFree (c :: body) := by
        intro x hx
        rcases List.mem_cons.mp hx with rfl | hx2
        · exact hcfact
        · exact hb x hx2
      have hg : GoodSeq (((c :: body) ++ term) :: ls) :=
        GoodSeq.cons (c :: body) term ls hbf ht hadj hr
      simpa using hg

theorem splitKeep_joinAll {ls : List (List Char)} (h : GoodSeq ls) :
    splitKeep (joinAll ls) = ls := by
  induction h with
  | nil => rfl
  | last l hne hb =>
    show splitKeep (l ++ joinAll []) = [l]
    simpa [joinAll] using splitKeep_breakFree hb hne
  | cons body term rest hb ht hadj hr ih =>
    show splitKeep ((body ++ term) ++ joinAll rest) = (body ++ term) :: rest
    rw [List.append_assoc,
      splitKeep_body_append body term (joinAll rest) hb ht
        (fun he => strHeadNotNL_joinAll hr (hadj he)), ih]

theorem breakFree_append {a b : List Char} (ha : BreakFree a)
    (hb : BreakFree b) : BreakFree (a ++ b) := by
  intro c hc
  rcases List.mem_append.mp hc with h | h
  · exact ha c h
  · exact hb c h

theorem breakFree_replicate_sp (k : Nat) : BreakFree (List.replicate k sp) := by
  intro c hc
  have h := List.eq_of_mem_replicate hc
  subst h
  exact ⟨by decide, by decide⟩

theorem headNotNL_map_pfx (k : Nat) (g : Str → Str)
    (hg : ∀ l, g l = l ∨ g l = List.replicate k sp ++ l)
    {ls : List (List Char)} (h : headNotNL ls) : headNotNL (ls.map g) := by
  cases ls with
  | nil => trivial
  | cons l0 rest =>
    rcases hg l0 with h0 | h0
    · simp only [List.map_cons, h0]
      cases l0 with
      | nil => trivial
      | cons c t => exact h
    · simp only [List.map_cons, h0]
      cases k with
      | zero =>
        simp only [List.replicate, List.nil_append]
        cases l0 with
        | nil => trivial
        | cons c t => exact h
      | succ k2 =>
        show headNotNL ((sp :: (List.replicate k2 sp ++ l0)) :: rest.map g)
        show sp ≠ nl
        decide

theorem goodSeq_map_pfx (k : Nat) (g : Str → Str)
    (hg : ∀ l, g l = l ∨ g l = List.replicate k sp ++ l)
    {ls : List (List Char)} (h : GoodSeq ls) : GoodSeq (ls.map g) := by
  induction h with
  | nil => exact GoodSeq.nil
  | last l hne hb =>
    rcases hg l with h0 | h0
    · simpa [h0] using GoodSeq.last l hne hb
    · simp only [List.map_cons, List.map_nil, h0]
      exact GoodSeq.last _ (by simp [hne])
        (breakFree_append (breakFree_replicate_sp k) hb)
  | cons body term rest hb ht hadj hr ih =>
    rcases hg (body ++ term) with h0 | h0
    · simp only [List.map_cons, h0]
      exact GoodSeq.cons body term _ hb ht
        (fun he => headNotNL_map_pfx k g hg (hadj he)) ih
    · simp only [List.map_cons, h0, ← List.append_assoc]
      exact GoodSeq.cons (List.replicate k sp ++ body) term _
        (breakFree_append (breakFree_replicate_sp k) hb) ht
        (fun he => headNotNL_map_pfx k g hg (hadj he)) ih

theorem mem_dropWhile_of_not {p : α → Bool} {c : α} {l : List α}
    (hc : c ∈ l) (hnp : p c = false) : c ∈ l.dropWhile p := by
  have hsplit := List.takeWhile_append_dropWhile (p := p) (l := l)
  rw [← hsplit] at hc
  rcases List.mem_append.mp hc with h | h
  · exact absurd (List.mem_takeWhile_imp h) (by simp [hnp])
  · exact h

theorem mem_pyRstrip_of_not_space {c : Char} {l : Str}
    (hc : c ∈ l) (hns : pyIsSpace c = false) : c ∈ pyRstrip l := by
  unfold pyRstrip
  rw [List.mem_reverse]
  exact mem_dropWhile_of_not (List.mem_reverse.mpr hc) hns

theorem pyRstrip_subset {l : Str} : ∀ c ∈ pyRstrip l, c ∈ l := by
  intro c hc
  unfold pyRstrip at hc
  rw [List.mem_reverse] at hc
  have h2 := (List.dropWhile_sublist (p := pyIsSpace) (l := l.reverse)).subset hc
  exact List.mem_reverse.mp h2

theorem pyStrip_isEmpty_eq (l : Str) :
    (pyStrip l).isEmpty = !(l.any fun c => !(pyIsSpace c)) := by
  by_cases h : ∀ c ∈ l, pyIsSpace c = true
  · have h1 : pyStrip l = [] := by
      unfold pyStrip pyLstrip
      rw [List.dropWhile_eq_nil_iff]
      intro c hc
      exact h c (pyRstrip_subset c hc)
    have h2 : (l.any fun c => !(pyIsSpace c)) = false := by
      rw [List.any_eq_false]
      intro c hc
      simp [h c hc]
    simp [h1, h2]
  · push_neg at h
    obtain ⟨c, hc, hcs⟩ := h
    have hns : pyIsSpace c = false := by simpa using hcs
    have h1 : c ∈ pyStrip l :=
      mem_dropWhile_of_not (mem_pyRstrip_of_not_space hc hns) hns
    have h2 : (pyStrip l).isEmpty = false := by
      cases hps : pyStrip l with
      | nil => rw [hps] at h1; simp at h1
      | cons _ _ => simp
    have h3 : (l.any fun c => !(pyIsSpace c)) = true :=
      List.any_eq_true.mpr ⟨c, hc, by simp [hns]⟩
    simp [h2, h3]

/-- C10: splitting the result of `_indent` into lines gives exactly the
lines of the input, in order, each line that contains a non-whitespace
character prefixed with exactly `4 * level` spaces and each whitespace-only
line unchanged — so the line count, order, and post-prefix content are all
preserved, for every string and every level. -/
theorem c10_indent (s : Str) (level : Nat) :
    splitKeep (_indent s level) =
      (splitKeep s).map (fun l =>
        if l.any (fun c => !(pyIsSpace c)) then
          List.replicate (4 * level) sp ++ l
        else l) := by
  have hfun : (fun line : Str => if !(pyStrip line).isEmpty then
        List.replicate (4 * level) sp ++ line else line) =
      (fun l : Str => if l.any (fun c => !(pyIsSpace c)) then
        List.replicate (4 * level) sp ++ l else l) := by
    funext l
    rw [pyStrip_isEmpty_eq]
    cases l.any (fun c => !(pyIsSpace c)) <;> simp
  have hindent : _indent s level = joinAll ((splitKeep s).map
      (fun l : Str => if l.any (fun c => !(pyIsSpace c)) then
        List.replicate (4 * level) sp ++ l else l)) := by
    unfold _indent
    rw [hfun]
  rw [hindent]
  exact splitKeep_joinAll (goodSeq_map_pfx (4 * level) _
    (fun l => by
      by_cases hl : (l.any (fun c => !(pyIsSpace c))) = true
      · exact Or.inr (by simp [hl])
      · exact Or.inl (by simp [hl]))
    (goodSeq_splitKeep s))


/-! ### C2: ANSI stripping — the noEsc toolkit -/

theorem noEsc_iff {s : Str} : noEsc s = true ↔ ∀ c ∈ s, c ≠ escChar := by
  simp [noEsc, List.all_eq_true]

theorem noEsc_of_subset {s t : Str} (hsub : ∀ c ∈ t, c ∈ s ∨ c ≠ escChar)
    (hs : noEsc s = true) : noEsc t = true := by
  rw [noEsc_iff] at hs ⊢
  intro c hc
  rcases hsub c hc with h | h
  · exact hs c h
  · exact h

theorem noEsc_append {a b : Str} (ha : noEsc a = true) (hb : noEsc b = true) :
    noEsc (a ++ b) = true := by
  rw [noEsc_iff] at ha hb ⊢
  intro c hc
  rcases List.mem_append.mp hc with h | h
  · exact ha c h
  · exact hb c h

theorem noEsc_cons {c : Char} {s : Str} (hc : c ≠ escChar)
    (hs : noEsc s = true) : noEsc (c :: s) = true := by
  rw [noEsc_iff] at hs ⊢
  intro x hx
  rcases List.mem_cons.mp hx with rfl | hx2
  · exact hc
  · exact hs x hx2

theorem ansiMatch_esc {s : List Char} (h : (ansiMatch s).isSome = true) :
    escChar ∈ s := by
  match s with
  | [] => simp [ansiMatch] at h
  | [a] => simp [ansiMatch] at h
  | a :: b :: rest =>
    by_cases ha : (a == escChar && b == '[') = true
    · have ha2 : a = escChar := by
        have h3 := (Bool.and_eq_true _ _).mp ha
        simpa using h3.1
      rw [ha2]
      exact List.mem_cons_self _ _
    · have hb2 : (a == escChar && b == '[') = false := by simpa using ha
      rw [show ansiMatch (a :: b :: rest) = Option.none from by
        simp [ansiMatch, hb2]] at h
      simp at h

theorem hasAnsi_eq_false_of_noEsc {s : Str} (h : noEsc s = true) :
    hasAnsi s = false := by
  induction s with
  | nil => rfl
  | cons c rest ih =>
    have h2 : noEsc rest = true := by
      rw [noEsc_iff] at h ⊢
      intro x hx
      exact h x (List.mem_cons_of_mem _ hx)
    have h3 : (ansiMatch (c :: rest)).isSome = false := by
      cases hmm : (ansiMatch (c :: rest)).isSome with
      | false => rfl
      | true =>
        have h5 := ansiMatch_esc hmm
        rw [noEsc_iff] at h
        exact absurd rfl (h escChar h5)
    simp [hasAnsi, h3, ih h2]

theorem mem_expandTabsAux {tw : Nat} {s : List Char} :
    ∀ {col : Nat} {c : Char}, c ∈ expandTabsAux tw col s → c ∈ s ∨ c = sp := by
  induction s with
  | nil =>
    intro col c h
    simp [expandTabsAux] at h
  | cons x rest ih =>
    intro col c h
    simp only [expandTabsAux] at h
    split at h
    · rcases List.mem_append.mp h with h1 | h1
      · exact Or.inr (List.eq_of_mem_replicate h1)
      · rcases ih h1 with h2 | h2
        · exact Or.inl (List.mem_cons_of_mem _ h2)
        · exact Or.inr h2
    · have h2 : c = x ∨ c ∈ expandTabsAux tw 0 rest ∨
          c ∈ expandTabsAux tw ((col + 1) % tw) rest := by
        split at h
        · rcases List.mem_cons.mp h with h3 | h3
          · exact Or.inl h3
          · exact Or.inr (Or.inl h3)
        · rcases List.mem_cons.mp h with h3 | h3
          · exact Or.inl h3
          · exact Or.inr (Or.inr h3)
      rcases h2 with rfl | h3 | h3
      · exact Or.inl (List.mem_cons_self _ _)
      · rcases ih h3 with h4 | h4
        · exact Or.inl (List.mem_cons_of_mem _ h4)
        · exact Or.inr h4
      · rcases ih h3 with h4 | h4
        · exact Or.inl (List.mem_cons_of_mem _ h4)
        · exact Or.inr h4

theorem mem_splitNL : ∀ {s : List Char} {l : List Char}, l ∈ splitNL s →
    ∀ {c : Char}, c ∈ l → c ∈ s := by
  intro s
  induction s with
  | nil =>
    intro l hl c hc
    simp only [splitNL, List.mem_singleton] at hl
    subst hl
    simp at hc
  | cons x rest ih =>
    intro l hl c hc
    by_cases hx : (x == nl) = true
    · rw [show splitNL (x :: rest) = [] :: splitNL rest from by
        simp [splitNL, hx]] at hl
      rcases List.mem_cons.mp hl with rfl | hl2
      · simp at hc
      · exact List.mem_cons_of_mem _ (ih hl2 hc)
    · cases hm : splitNL rest with
      | nil =>
        rw [show splitNL (x :: rest) = [[x]] from by simp [splitNL, hx, hm]] at hl
        rw [List.mem_singleton] at hl
        subst hl
        rw [List.mem_singleton] at hc
        subst hc
        exact List.mem_cons_self _ _
      | cons l0 ls0 =>
        rw [show splitNL (x :: rest) = (x :: l0) :: ls0 from by
          simp [splitNL, hx, hm]] at hl
        rcases List.mem_cons.mp hl with rfl | hl2
        · rcases List.mem_cons.mp hc with rfl | hc2
          · exact List.mem_cons_self _ _
          · have hl0 : l0 ∈ splitNL rest := by
              rw [hm]; exact List.mem_cons_self _ _
            exact List.mem_cons_of_mem _ (ih hl0 hc2)
        · have hls : l ∈ splitNL rest := by
            rw [hm]; exact List.mem_cons_of_mem _ hl2
          exact List.mem_cons_of_mem _ (ih hls hc)

theorem mem_splitNoKeep : ∀ {s : List Char} {l : List Char}, l ∈ splitNoKeep s →
    ∀ {c : Char}, c ∈ l → c ∈ s := by
  intro s
  induction s using splitNoKeep.induct with
  | case1 =>
    intro l hl
    simp [splitNoKeep] at hl
  | case2 c0 hb =>
    intro l hl c hc
    rw [show splitNoKeep [c0] = [[]] from by simp [splitNoKeep, hb]] at hl
    rw [List.mem_singleton] at hl
    subst hl
    simp at hc
  | case3 c0 hb =>
    intro l hl c hc
    rw [show splitNoKeep [c0] = [[c0]] from by simp [splitNoKeep, hb]] at hl
    rw [List.mem_singleton] at hl
    subst hl
    rw [List.mem_singleton] at hc
    subst hc
    exact List.mem_cons_self _ _
  | case4 c0 d rest h1 h2 ih =>
    intro l hl c hc
    rw [show splitNoKeep (c0 :: d :: rest) = [] :: splitNoKeep rest from by
      simp [splitNoKeep, h1, h2]] at hl
    rcases List.mem_cons.mp hl with rfl | hl2
    · simp at hc
    · exact List.mem_cons_of_mem _ (List.mem_cons_of_mem _ (ih hl2 hc))
  | case5 c0 d rest h1 h2 ih =>
    intro l hl c hc
    rw [show splitNoKeep (c0 :: d :: rest) = [] :: splitNoKeep (d :: rest) from by
      simp [splitNoKeep, h1, h2]] at hl
    rcases List.mem_cons.mp hl with rfl | hl2
    · simp at hc
    · exact List.mem_cons_of_mem _ (ih hl2 hc)
  | case6 c0 d rest h1 h2 ih =>
    intro l hl c hc
    rw [show splitNoKeep (c0 :: d :: rest) = [] :: splitNoKeep (d :: rest) from by
      simp [splitNoKeep, h1, h2]] at hl
    rcases List.mem_cons.mp hl with rfl | hl2
    · simp at hc
    · exact List.mem_cons_of_mem _ (ih hl2 hc)
  | case7 c0 d rest h1 h2 hm ih =>
    intro l hl c hc
    rw [show splitNoKeep (c0 :: d :: rest) = [[c0]] from by
      simp [splitNoKeep, h1, h2, hm]] at hl
    rw [List.mem_singleton] at hl
    subst hl
    rw [List.mem_singleton] at hc
    subst hc
    exact List.mem_cons_self _ _
  | case8 c0 d rest h1 h2 l0 ls0 hm ih =>
    intro l hl c hc
    rw [show splitNoKeep (c0 :: d :: rest) = (c0 :: l0) :: ls0 from by
      simp [splitNoKeep, h1, h2, hm]] at hl
    rcases List.mem_cons.mp hl with rfl | hl2
    · rcases List.mem_cons.mp hc with rfl | hc2
      · exact List.mem_cons_self _ _
      · have hl0 : l0 ∈ splitNoKeep (d :: rest) := by
          rw [hm]; exact List.mem_cons_self _ _
        exact List.mem_cons_of_mem _ (ih hl0 hc2)
    · have hls : l ∈ splitNoKeep (d :: rest) := by
        rw [hm]; exact List.mem_cons_of_mem _ hl2
      exact List.mem_cons_of_mem _ (ih hls hc)

theorem mem_splitKeep : ∀ {s : List Char} {l : List Char}, l ∈ splitKeep s →
    ∀ {c : Char}, c ∈ l → c ∈ s := by
  intro s
  induction s using splitKeep.induct with
  | case1 =>
    intro l hl
    simp [splitKeep] at hl
  | case2 c0 =>
    intro l hl c hc
    rw [show splitKeep [c0] = [[c0]] from rfl, List.mem_singleton] at hl
    subst hl
    rw [List.mem_singleton] at hc
    subst hc
    exact List.mem_cons_self _ _
  | case3 c0 d rest h1 h2 ih =>
    intro l hl c hc
    have hc0 : c0 = cr := by simpa using h1
    have hd0 : d = nl := by simpa using h2
    subst hc0; subst hd0
    rw [show splitKeep (cr :: nl :: rest) = [cr, nl] :: splitKeep rest from by
      simp [splitKeep]] at hl
    rcases List.mem_cons.mp hl with rfl | hl2
    · rcases List.mem_cons.mp hc with rfl | hc2
      · exact List.mem_cons_self _ _
      · rw [List.mem_singleton] at hc2
        subst hc2
        exact List.mem_cons_of_mem _ (List.mem_cons_self _ _)
    · exact List.mem_cons_of_mem _ (List.mem_cons_of_mem _ (ih hl2 hc))
  | case4 c0 d rest h1 h2 ih =>
    intro l hl c hc
    have hc0 : c0 = cr := by simpa using h1
    subst hc0
    rw [show splitKeep (cr :: d :: rest) = [cr] :: splitKeep (d :: rest) from by
      simp [splitKeep, h2]] at hl
    rcases List.mem_cons.mp hl with rfl | hl2
    · rw [List.mem_singleton] at hc
      subst hc
      exact List.mem_cons_self _ _
    · exact List.mem_cons_of_mem _ (ih hl2 hc)
  | case5 c0 d rest h1 h2 ih =>
    intro l hl c hc
    rw [show splitKeep (c0 :: d :: rest) = [c0] :: splitKeep (d :: rest) from by
      simp [splitKeep, h1, h2]] at hl
    rcases List.mem_cons.mp hl with rfl | hl2
    · rw [List.mem_singleton] at hc
      subst hc
      exact List.mem_cons_self _ _
    · exact List.mem_cons_of_mem _ (ih hl2 hc)
  | case6 c0 d rest h1 h2 hm ih =>
    intro l hl c hc
    rw [show splitKeep (c0 :: d :: rest) = [[c0]] from by
      simp [splitKeep, h1, h2, hm]] at hl
    rw [List.mem_singleton] at hl
    subst hl
    rw [List.mem_singleton] at hc
    subst hc
    exact List.mem_cons_self _ _
  | case7 c0 d rest h1 h2 l0 ls0 hm ih =>
    intro l hl c hc
    rw [show splitKeep (c0 :: d :: rest) = (c0 :: l0) :: ls0 from by
      simp [splitKeep, h1, h2, hm]] at hl
    rcases List.mem_cons.mp hl with rfl | hl2
    · rcases List.mem_cons.mp hc with rfl | hc2
      · exact List.mem_cons_self _ _
      · have hl0 : l0 ∈ splitKeep (d :: rest) := by
          rw [hm]; exact List.mem_cons_self _ _
        exact List.mem_cons_of_mem _ (ih hl0 hc2)
    · have hls : l ∈ splitKeep (d :: rest) := by
        rw [hm]; exact List.mem_cons_of_mem _ hl2
      exact List.mem_cons_of_mem _ (ih hls hc)

theorem mem_joinAll {ls : List Str} {c : Char} (h : c ∈ joinAll ls) :
    ∃ l ∈ ls, c ∈ l := by
  induction ls with
  | nil => simp [joinAll] at h
  | cons l rest ih =>
    simp only [joinAll] at h
    rcases List.mem_append.mp h with h1 | h1
    · exact ⟨l, List.mem_cons_self _ _, h1⟩
    · obtain ⟨l2, hl2, hc2⟩ := ih h1
      exact ⟨l2, List.mem_cons_of_mem _ hl2, hc2⟩

theorem mem_joinNL {ls : List Str} {c : Char} (h : c ∈ joinNL ls) :
    (∃ l ∈ ls, c ∈ l) ∨ c = nl := by
  induction ls with
  | nil => simp [joinNL] at h
  | cons l rest ih =>
    cases rest with
    | nil =>
      exact Or.inl ⟨l, List.mem_cons_self _ _, by simpa [joinNL] using h⟩
    | cons l2 rest2 =>
      rw [show joinNL (l :: l2 :: rest2) = l ++ nl :: joinNL (l2 :: rest2)
        from rfl] at h
      rcases List.mem_append.mp h with h1 | h1
      · exact Or.inl ⟨l, List.mem_cons_self _ _, h1⟩
      · rcases List.mem_cons.mp h1 with rfl | h2
        · exact Or.inr rfl
        · rcases ih h2 with ⟨l3, hl3, hc3⟩ | h3
          · exact Or.inl ⟨l3, List.mem_cons_of_mem _ hl3, hc3⟩
          · exact Or.inr h3

theorem mem_joinSep {sep : Str} {ls : List Str} {c : Char}
    (h : c ∈ joinSep sep ls) : (∃ l ∈ ls, c ∈ l) ∨ c ∈ sep := by
  induction ls with
  | nil => simp [joinSep] at h
  | cons l rest ih =>
    cases rest with
    | nil =>
      exact Or.inl ⟨l, List.mem_cons_self _ _, by simpa [joinSep] using h⟩
    | cons l2 rest2 =>
      rw [show joinSep sep (l :: l2 :: rest2) =
        l ++ sep ++ joinSep sep (l2 :: rest2) from rfl] at h
      rcases List.mem_append.mp h with h1 | h1
      · rcases List.mem_append.mp h1 with h2 | h2
        · exact Or.inl ⟨l, List.mem_cons_self _ _, h2⟩
        · exact Or.inr h2
      · rcases ih h1 with ⟨l3, hl3, hc3⟩ | h3
        · exact Or.inl ⟨l3, List.mem_cons_of_mem _ hl3, hc3⟩
        · exact Or.inr h3

theorem dropBlankEnds_subset {ls : List Str} : ∀ l ∈ dropBlankEnds ls, l ∈ ls := by
  intro l hl
  unfold dropBlankEnds at hl
  have h1 := (List.dropWhile_sublist (p := List.isEmpty)
    (l := (ls.reverse.dropWhile List.isEmpty).reverse)).subset hl
  rw [List.mem_reverse] at h1
  have h2 := (List.dropWhile_sublist (p := List.isEmpty)
    (l := ls.reverse)).subset h1
  rw [List.mem_reverse] at h2
  exact h2

theorem mem_cleandocLines {ls : List Str} {l : Str} (hl : l ∈ cleandocLines ls) :
    ∀ {c : Char}, c ∈ l → ∃ l2 ∈ ls, c ∈ l2 := by
  intro c hc
  cases ls with
  | nil => simp [cleandocLines] at hl
  | cons l0 rest =>
    cases hmg : marginFold Option.none rest with
    | some m =>
      rw [show cleandocLines (l0 :: rest) =
        pyLstrip l0 :: rest.map (List.drop m) from by
          simp [cleandocLines, hmg]] at hl
      rcases List.mem_cons.mp hl with rfl | hl2
      · refine ⟨l0, List.mem_cons_self _ _, ?_⟩
        unfold pyLstrip at hc
        exact (List.dropWhile_sublist (p := pyIsSpace) (l := l0)).subset hc
      · obtain ⟨r, hr, hre⟩ := List.mem_map.mp hl2
        subst hre
        refine ⟨r, List.mem_cons_of_mem _ hr, ?_⟩
        exact (List.drop_sublist m r).subset hc
    | none =>
      rw [show cleandocLines (l0 :: rest) = pyLstrip l0 :: rest from by
        simp [cleandocLines, hmg]] at hl
      rcases List.mem_cons.mp hl with rfl | hl2
      · refine ⟨l0, List.mem_cons_self _ _, ?_⟩
        unfold pyLstrip at hc
        exact (List.dropWhile_sublist (p := pyIsSpace) (l := l0)).subset hc
      · exact ⟨l, List.mem_cons_of_mem _ hl2, hc⟩

theorem noEsc_cleandoc {u : Str} (h : noEsc u = true) :
    noEsc (cleandoc u) = true := by
  refine noEsc_of_subset ?_ h
  intro c hc
  unfold cleandoc at hc
  rcases mem_joinNL hc with ⟨l, hl, hcl⟩ | hnl
  · have hl2 := dropBlankEnds_subset _ hl
    obtain ⟨l3, hl3, hc3⟩ := mem_cleandocLines hl2 hcl
    have hc4 : c ∈ expandTabs 8 u := mem_splitNL hl3 hc3
    rcases mem_expandTabsAux (by simpa [expandTabs] using hc4) with h5 | h5
    · exact Or.inl h5
    · exact Or.inr (by rw [h5]; decide)
  · exact Or.inr (by rw [hnl]; decide)

theorem mem_wsSub {s : Str} {c : Char} (h : c ∈ wsSub s) : c ∈ s ∨ c = sp := by
  unfold wsSub at h
  obtain ⟨d, hd, hdc⟩ := List.mem_map.mp h
  by_cases h2 : (d == Char.ofNat 11 || d == Char.ofNat 12) = true
  · rw [if_pos h2] at hdc
    exact Or.inr hdc.symm
  · rw [if_neg h2] at hdc
    subst hdc
    exact Or.inl hd

theorem string2lines_chars {tw : Nat} {cw : Bool} {u : Str} {l : Str}
    (hl : l ∈ string2lines tw cw u) : ∀ {c : Char}, c ∈ l → c ∈ u ∨ c = sp := by
  intro c hc
  simp only [string2lines] at hl
  obtain ⟨l0, hl0, hl0eq⟩ := List.mem_map.mp hl
  subst hl0eq
  have hc1 : c ∈ expandTabsAux tw 0 l0 := pyRstrip_subset c hc
  rcases mem_expandTabsAux hc1 with h1 | h1
  · have hc2 := mem_splitNoKeep hl0 h1
    cases cw with
    | false => exact Or.inl (by simpa using hc2)
    | true =>
      rcases mem_wsSub (by simpa using hc2) with h3 | h3
      · exact Or.inl h3
      · exact Or.inr h3
  · exact Or.inr h1

theorem noEsc_barPrefix {l : Str} (h : noEsc l = true) (b : Bool) :
    noEsc (if b then '|' :: sp :: l else l) = true := by
  cases b with
  | false => exact h
  | true =>
    refine noEsc_cons (by decide) (noEsc_cons (by decide) h)

theorem barLines_noEsc : ∀ {b : Bool} {ls : List Str},
    (∀ l ∈ ls, noEsc l = true) → ∀ l2 ∈ barLines b ls, noEsc l2 = true := by
  intro b ls
  induction ls generalizing b with
  | nil =>
    intro _ l2 h2
    simp [barLines] at h2
  | cons l rest ih =>
    intro hall l2 h2
    simp only [barLines] at h2
    split at h2
    · exact ih (fun x hx => hall x (List.mem_cons_of_mem _ hx)) l2 h2
    · rcases List.mem_cons.mp h2 with rfl | h3
      · exact noEsc_barPrefix (hall l (List.mem_cons_self _ _)) _
      · exact ih (fun x hx => hall x (List.mem_cons_of_mem _ hx)) l2 h3

theorem noEsc_indent {x : Str} {lvl : Nat} (h : noEsc x = true) :
    noEsc (_indent x lvl) = true := by
  refine noEsc_of_subset ?_ h
  intro c hc
  unfold _indent at hc
  obtain ⟨l, hl, hcl⟩ := mem_joinAll hc
  obtain ⟨l0, hl0, hl0eq⟩ := List.mem_map.mp hl
  subst hl0eq
  revert hcl
  split
  · intro hcl
    rcases List.mem_append.mp hcl with h1 | h1
    · exact Or.inr (by rw [List.eq_of_mem_replicate h1]; decide)
    · exact Or.inl (mem_splitKeep hl0 h1)
  · intro hcl
    exact Or.inl (mem_splitKeep hl0 hcl)

theorem barIndentLines_noEsc : ∀ {b : Bool} {ls : List Str},
    (∀ l ∈ ls, noEsc l = true) → ∀ l2 ∈ barIndentLines b ls, noEsc l2 = true := by
  intro b ls
  induction ls generalizing b with
  | nil =>
    intro _ l2 h2
    simp [barIndentLines] at h2
  | cons l rest ih =>
    intro hall l2 h2
    simp only [barIndentLines] at h2
    split at h2
    · exact ih (fun x hx => hall x (List.mem_cons_of_mem _ hx)) l2 h2
    · rcases List.mem_cons.mp h2 with rfl | h3
      · exact noEsc_indent (noEsc_barPrefix (hall l (List.mem_cons_self _ _)) _)
      · exact ih (fun x hx => hall x (List.mem_cons_of_mem _ hx)) l2 h3

theorem format_help_hasAnsi {s : Str} (hs : noEsc (ansiSub s) = true) :
    ∀ l ∈ _format_help s, hasAnsi l = false := by
  intro l hl
  refine hasAnsi_eq_false_of_noEsc ?_
  unfold _format_help at hl
  rcases List.mem_append.mp hl with h1 | h1
  · refine barLines_noEsc ?_ l h1
    intro l2 hl2
    refine noEsc_of_subset ?_ (noEsc_cleandoc hs)
    intro c hc
    rcases string2lines_chars hl2 hc with h2 | h2
    · exact Or.inl h2
    · exact Or.inr (by rw [h2]; decide)
  · rw [List.mem_singleton] at h1
    subst h1
    rfl


theorem noEsc_joinSep {sep : Str} {ls : List Str} (hsep : noEsc sep = true)
    (h : ∀ l ∈ ls, noEsc l = true) : noEsc (joinSep sep ls) = true := by
  rw [noEsc_iff]
  intro c hc
  rcases mem_joinSep hc with ⟨l, hl, hcl⟩ | h2
  · exact noEsc_iff.mp (h l hl) c hcl
  · exact noEsc_iff.mp hsep c h2

theorem noEsc_join_options {opts : List Str} (h : ∀ o ∈ opts, noEsc o = true) :
    noEsc (join_options opts) = true := by
  unfold join_options
  refine noEsc_joinSep (by decide) ?_
  intro l hl
  exact h l (mem_pySorted hl)

theorem noEsc_stripMetavar {mv : Str} (h : noEsc mv = true) :
    noEsc (stripMetavar mv) = true := by
  refine noEsc_of_subset ?_ h
  intro c hc
  refine Or.inl ?_
  unfold stripMetavar at hc
  rw [List.mem_reverse] at hc
  have h1 := (List.dropWhile_sublist _).subset hc
  rw [List.mem_reverse] at h1
  exact (List.dropWhile_sublist _).subset h1

theorem noEsc_write_opts {opt : Opt} {opts : List Str}
    (h : ∀ o ∈ opts, noEsc o = true) (hname : noEsc opt.name = true)
    (hmv : noEsc (optGet opt.metavar) = true) :
    noEsc (_write_opts opt opts) = true := by
  have hnm : ∀ nm : Str, noEsc nm = true →
      noEsc (join_options opts ++ sp :: '<' :: (nm ++ [('>' : Char)])) = true := by
    intro nm hn
    refine noEsc_append (noEsc_join_options h) ?_
    refine noEsc_cons (by decide) (noEsc_cons (by decide) ?_)
    exact noEsc_append hn (by decide)
  cases hm : opt.metavar with
  | none =>
    simp only [_write_opts, hm]
    split
    · exact hnm _ hname
    · exact noEsc_join_options h
  | some mv =>
    have hmv2 : noEsc mv = true := by simpa [optGet, hm] using hmv
    simp only [_write_opts, hm]
    split
    · split
      · exact hnm _ (noEsc_stripMetavar hmv2)
      · exact hnm _ hname
    · exact noEsc_join_options h

theorem noEsc_help_record_fst {ctx : Ctx} {opt : Opt}
    (hopts : ∀ o ∈ opt.opts, noEsc o = true)
    (hsec : ∀ o ∈ opt.secondary_opts, noEsc o = true)
    (hname : noEsc opt.name = true)
    (hmv : noEsc (optGet opt.metavar) = true) :
    noEsc ((_get_help_record ctx opt).fst) = true := by
  simp only [_get_help_record]
  refine noEsc_joinSep (by decide) ?_
  intro l hl
  rcases List.mem_append.mp hl with h1 | h1
  · rw [List.mem_singleton] at h1
    subst h1
    exact noEsc_write_opts hopts hname hmv
  · revert h1
    split
    · intro h1
      simp at h1
    · intro h1
      rw [List.mem_singleton] at h1
      subst h1
      exact noEsc_write_opts hsec hname hmv

theorem noEsc_command_name {ctx : Ctx} (h : noEsc (commandPath ctx) = true) :
    noEsc (_format_command_name ctx) = true := by
  refine noEsc_of_subset ?_ h
  intro c hc
  unfold _format_command_name at hc
  obtain ⟨d, hd, hdc⟩ := List.mem_map.mp hc
  by_cases h2 : (d == sp) = true
  · rw [if_pos h2] at hdc
    refine Or.inr ?_
    rw [← hdc]
    decide
  · rw [if_neg h2] at hdc
    subst hdc
    exact Or.inl hd

theorem dedupAux_subset : ∀ {l : List Str} {seen : List Str} {x : Str},
    x ∈ dedupAux seen l → x ∈ l := by
  intro l
  induction l with
  | nil =>
    intro seen x hx
    simp [dedupAux] at hx
  | cons y ys ih =>
    intro seen x hx
    simp only [dedupAux] at hx
    split at hx
    · exact List.mem_cons_of_mem _ (ih hx)
    · rcases List.mem_cons.mp hx with rfl | h2
      · exact List.mem_cons_self _ _
      · exact List.mem_cons_of_mem _ (ih h2)

theorem format_option_hasAnsi {ctx : Ctx} {opt : Opt}
    (hcp : noEsc (commandPath ctx) = true)
    (hopts : ∀ o ∈ opt.opts, noEsc o = true)
    (hsec : ∀ o ∈ opt.secondary_opts, noEsc o = true)
    (hname : noEsc opt.name = true)
    (hmv : noEsc (optGet opt.metavar) = true)
    (hbody : noEsc (ansiSub ((_get_help_record ctx opt).snd)) = true) :
    ∀ l ∈ _format_option ctx opt, hasAnsi l = false := by
  intro l hl
  refine hasAnsi_eq_false_of_noEsc ?_
  simp only [_format_option] at hl
  rcases List.mem_append.mp hl with h1 | h1
  · rcases List.mem_append.mp h1 with h2 | h2
    · rw [List.mem_flatMap] at h2
      obtain ⟨n, hn, hln⟩ := h2
      have hnE : noEsc n = true := by
        have hn2 := dedupAux_subset hn
        obtain ⟨o, ho, hoe⟩ := List.mem_map.mp hn2
        subst hoe
        refine noEsc_of_subset ?_ (hopts o ho)
        intro c hc
        exact Or.inl ((List.dropWhile_sublist _).subset hc)
      rcases List.mem_cons.mp hln with rfl | hln2
      · refine noEsc_append (noEsc_append
          (noEsc_append (by decide) (noEsc_command_name hcp))
          (noEsc_cons (by decide) hnE)) (by decide)
      · rw [List.mem_singleton] at hln2
        subst hln2
        rfl
    · rw [List.mem_singleton] at h2
      subst h2
      exact noEsc_append (by decide) (noEsc_help_record_fst hopts hsec hname hmv)
  · revert h1
    split
    · intro h1
      rcases List.mem_cons.mp h1 with rfl | h3
      · rfl
      · refine barIndentLines_noEsc ?_ l h3
        intro l2 hl2
        refine noEsc_of_subset ?_ hbody
        intro c hc
        rcases string2lines_chars hl2 hc with h4 | h4
        · exact Or.inl h4
        · refine Or.inr ?_
          rw [h4]
          decide
    · intro h1
      simp at h1

/-- C2 (amended): the help-formatting routines apply exactly one left-to-right
pass of the ANSI substitution before any line is emitted.  Whenever that one
pass leaves no escape character in the relevant source text — which holds for
every help text whose escape sequences are well formed and non-overlapping —
no line emitted by `_format_help`, `_format_description`, `_format_epilog`,
or `_format_option` contains an ANSI escape sequence.  (The option synopsis
line additionally requires the externally supplied option names, metavar and
command path to be escape free, since the code never strips those.) -/
theorem c2_ansi_stripping (s : Str) (ctx : Ctx) (opt : Opt)
    (hs : noEsc (ansiSub s) = true)
    (hd : noEsc (ansiSub (optGet (pyOr (Cmd.help (Ctx.command ctx))
      (Cmd.short_help (Ctx.command ctx))))) = true)
    (he : noEsc (ansiSub (optGet (Cmd.epilog (Ctx.command ctx)))) = true)
    (hcp : noEsc (commandPath ctx) = true)
    (hopts : ∀ o ∈ opt.opts, noEsc o = true)
    (hsec : ∀ o ∈ opt.secondary_opts, noEsc o = true)
    (hname : noEsc opt.name = true)
    (hmv : noEsc (optGet opt.metavar) = true)
    (hbody : noEsc (ansiSub ((_get_help_record ctx opt).snd)) = true) :
    (∀ l ∈ _format_help s, hasAnsi l = false) ∧
    (∀ l ∈ _format_description ctx, hasAnsi l = false) ∧
    (∀ l ∈ _format_epilog ctx, hasAnsi l = false) ∧
    (∀ l ∈ _format_option ctx opt, hasAnsi l = false) := by
  refine ⟨format_help_hasAnsi hs, ?_, ?_,
    format_option_hasAnsi hcp hopts hsec hname hmv hbody⟩
  · intro l hl
    simp only [_format_description] at hl
    revert hl
    split
    · intro hl
      exact format_help_hasAnsi hd l hl
    · intro hl
      simp at hl
  · intro l hl
    simp only [_format_epilog] at hl
    revert hl
    split
    · intro hl
      exact format_help_hasAnsi he l hl
    · intro hl
      simp at hl

theorem c2_witness :
    noEsc (ansiSub coloredStr) = true ∧
    noEsc (ansiSub (optGet (pyOr (Cmd.help (Ctx.command ctxColor))
      (Cmd.short_help (Ctx.command ctxColor))))) = true ∧
    noEsc (ansiSub (optGet (Cmd.epilog (Ctx.command ctxColor)))) = true ∧
    noEsc (commandPath ctxColor) = true ∧
    noEsc (ansiSub ((_get_help_record ctxColor optColor).snd)) = true ∧
    ((∀ l ∈ _format_help coloredStr, hasAnsi l = false) ∧
     (∀ l ∈ _format_description ctxColor, hasAnsi l = false) ∧
     (∀ l ∈ _format_epilog ctxColor, hasAnsi l = false) ∧
     (∀ l ∈ _format_option ctxColor optColor, hasAnsi l = false)) :=
  ⟨by decide, by decide, by decide, by decide, by decide,
   c2_ansi_stripping coloredStr ctxColor optColor (by decide) (by decide)
     (by decide) (by decide) (by decide) (by decide) (by decide) (by decide)
     (by decide)⟩

/-- C2 counterexample: for a help string with overlapping escape prefixes the
single left-to-right substitution pass leaves an ANSI escape sequence behind,
and `_format_help` (and `_format_description` for a command with that help
text) emits a line that still contains an ANSI escape sequence — even though
the original help string does contain ANSI escapes, as the claim requires. -/
theorem c2_counterexample :
    hasAnsi badHelp = true ∧
    ((_format_help badHelp).any hasAnsi) = true ∧
    ((_format_description ctxBad).any hasAnsi) = true :=
  ⟨by decide, by decide, by decide⟩

end SphinxClick
